import Mathlib

/-!
Verification development for the SD-Analytics service-analytics pipeline.

The definitions below are shallow embeddings of the Python source under
`src/service-analytics/`:

* `src/data_processing/integrator.py` — `map_tech_codes_to_devices`,
  `match_jobs_to_gps_stops`, `merge_sales_with_jobs`;
* `src/data_processing/cleaner.py` — `standardize_address`,
  `standardize_tech_code`;
* `src/analysis/text_mining.py` — `extract_cancellation_reason`,
  `extract_cancellation_reasons_from_df`;
* `src/analysis/metrics.py` — `calculate_tech_revenue_metrics`,
  `calculate_driving_metrics`, `parse_duration`;
* `config/` — the fixed lookup tables.

Strings are modelled as `List Char` where character-level processing matters
(Python `str.upper`, `str.strip`, regular-expression substitution are modelled
for the ASCII range the data uses).  Monetary amounts are `Int`, scores and
rates are `ℚ`.  Randomness (`random.randint`, `random.uniform`,
`np.random.choice`) is modelled by passing the drawn values explicitly.
Fallible Python code (code that can raise) returns `Except`.
-/

/-! ## Shared character utilities (ASCII model of Python str methods) -/

/-- Whitespace characters recognised by Python `str.strip` and the regex
class `\s` (ASCII range). -/
def isWsChar (c : Char) : Bool :=
  c = ' ' || c = '\t' || c = '\n' || c = '\r' || c = '\x0b' || c = '\x0c'

/-- Word characters of the regex class `\w` (ASCII range): letters, digits
and underscore.  Word boundaries `\b` in `cleaner.py`'s patterns separate
`\w` from non-`\w`. -/
def isWordChar (c : Char) : Bool :=
  c.isAlphanum || c = '_'

/-- Lower-to-upper case table for ASCII letters (model of `str.upper`). -/
def upPairs : List (Char × Char) :=
  [('a','A'), ('b','B'), ('c','C'), ('d','D'), ('e','E'), ('f','F'), ('g','G'),
   ('h','H'), ('i','I'), ('j','J'), ('k','K'), ('l','L'), ('m','M'), ('n','N'),
   ('o','O'), ('p','P'), ('q','Q'), ('r','R'), ('s','S'), ('t','T'), ('u','U'),
   ('v','V'), ('w','W'), ('x','X'), ('y','Y'), ('z','Z')]

/-- Upper-to-lower case table for ASCII letters (model of `str.lower`). -/
def lowPairs : List (Char × Char) :=
  [('A','a'), ('B','b'), ('C','c'), ('D','d'), ('E','e'), ('F','f'), ('G','g'),
   ('H','h'), ('I','i'), ('J','j'), ('K','k'), ('L','l'), ('M','m'), ('N','n'),
   ('O','o'), ('P','p'), ('Q','q'), ('R','r'), ('S','s'), ('T','t'), ('U','u'),
   ('V','v'), ('W','w'), ('X','x'), ('Y','y'), ('Z','z')]

/-- Uppercase a single character (identity off `a`-`z`). -/
def upChar (c : Char) : Char := (upPairs.lookup c).getD c

/-- Lowercase a single character (identity off `A`-`Z`). -/
def lowChar (c : Char) : Char := (lowPairs.lookup c).getD c

/-- `str.upper` on a character list. -/
def upperChars (s : List Char) : List Char := s.map upChar

/-- `str.lower` on a character list. -/
def lowerChars (s : List Char) : List Char := s.map lowChar

/-- Remove trailing whitespace (right half of `str.strip`). -/
def trimRight (s : List Char) : List Char :=
  (s.reverse.dropWhile isWsChar).reverse

/-- Python `str.strip`: drop leading and trailing whitespace. -/
def pyStrip (s : List Char) : List Char :=
  (trimRight s).dropWhile isWsChar

/-- Python substring containment `needle in hay` on character lists. -/
def containsSub (hay needle : List Char) : Bool :=
  needle.isPrefixOf hay ||
    (match hay with
     | [] => false
     | _ :: t => containsSub t needle)

/-! ## Data model for `merge_sales_with_jobs` (integrator.py lines 105-232)

A sales-journal record carries the join key `(TechCode, InvoiceNumber)` and
the five revenue columns the merge copies over.  A job record, once the merge
has dropped every revenue-like column from the job side (lines 168-181),
contributes only its join key `(TechCode, JobNumber)`. -/

structure SalesRecord where
  techCode : String
  invoiceNumber : String
  laborSold : Int
  partsSold : Int
  sCallSold : Int
  merchandiseSold : Int
  totalSale : Int
deriving DecidableEq, Repr

structure JobKey where
  techCode : String
  jobNumber : String
deriving DecidableEq, Repr

/-- The five revenue projections `['LaborSold', 'PartsSold', 'SCallSold',
'MerchandiseSold', 'TotalSale']` of integrator.py line 161. -/
def revComponents : List (SalesRecord → Int) :=
  [SalesRecord.laborSold, SalesRecord.partsSold, SalesRecord.sCallSold,
   SalesRecord.merchandiseSold, SalesRecord.totalSale]

/-- Key equality used by `drop_duplicates(subset=['TechCode','InvoiceNumber'])`
and by the exact merge. -/
def salesKeyMatches (a b : SalesRecord) : Bool :=
  a.techCode == b.techCode && a.invoiceNumber == b.invoiceNumber

/-- The `(TechCode, InvoiceNumber)` key of a sales record. -/
def salesKey (s : SalesRecord) : String × String :=
  (s.techCode, s.invoiceNumber)

/-- Scanner for `drop_duplicates(keep='first')`: keep a record exactly when
its key has not been seen among the earlier records. -/
def dedupSalesAux (seen : List (String × String)) :
    List SalesRecord → List SalesRecord
  | [] => []
  | r :: rs =>
    if salesKey r ∈ seen then dedupSalesAux seen rs
    else r :: dedupSalesAux (salesKey r :: seen) rs

/-- `sales_df.drop_duplicates(subset=['TechCode', 'InvoiceNumber'],
keep='first')` (integrator.py line 141): keep the first record of every
`(technician, invoice)` pair, in order. -/
def dedupSales (l : List SalesRecord) : List SalesRecord :=
  dedupSalesAux [] l

/-- The exact join path (integrator.py lines 147-201): a pandas left merge of
the job table with the deduplicated sales table on
`(TechCode, JobNumber) = (TechCode, InvoiceNumber)`.  A left merge emits one
output row per matching right row, and one row with null sales data when no
right row matches. -/
def merge_sales_with_jobs_exact (jobs : List JobKey) (sales : List SalesRecord) :
    List (JobKey × Option SalesRecord) :=
  let dsales := dedupSales sales
  jobs.flatMap (fun j =>
    let ms := dsales.filter
      (fun s => s.techCode == j.techCode && s.invoiceNumber == j.jobNumber)
    match ms with
    | [] => [(j, none)]
    | ms => ms.map (fun s => (j, some s)))

/-- Revenue total of one technician in a sales list, as produced by
`sales_df.groupby('TechCode').agg(sum)` for one component (integrator.py
lines 215-218); a technician absent from the sales table yields a null that
downstream sums treat as `0`. -/
def techSalesTotal (f : SalesRecord → Int) (sales : List SalesRecord)
    (tech : String) : Int :=
  ((sales.filter (fun s => s.techCode == tech)).map f).sum

/-- The technician-level fallback join path (integrator.py lines 204-228),
shown for one revenue component `f`: sales are summed per technician and
every job row of that technician receives the full per-technician total via
a left merge on `TechCode` alone. -/
def merge_sales_with_jobs_fallback (f : SalesRecord → Int) (jobs : List JobKey)
    (sales : List SalesRecord) : List (JobKey × Int) :=
  jobs.map (fun j => (j, techSalesTotal f sales j.techCode))

/-- Component sum over the output of the exact merge: unmatched rows carry
null revenue, which pandas `sum` treats as `0`. -/
def mergedSumExact (f : SalesRecord → Int)
    (out : List (JobKey × Option SalesRecord)) : Int :=
  (out.map (fun p => match p.2 with | none => 0 | some s => f s)).sum

/-- Component sum over the output of the fallback merge. -/
def mergedSumFallback (f : SalesRecord → Int) (jobs : List JobKey)
    (sales : List SalesRecord) : Int :=
  ((merge_sales_with_jobs_fallback f jobs sales).map Prod.snd).sum

/-- Component sum over a raw sales table. -/
def rawSalesSum (f : SalesRecord → Int) (sales : List SalesRecord) : Int :=
  (sales.map f).sum

/-! ## GPS stop matching (`match_jobs_to_gps_stops`, integrator.py lines 38-103)

Timestamps are minutes on an `Int` axis.  The address-confidence function
(`match_address_confidence`, a fuzzy string score in `[0, 100]`) is passed as
an explicit parameter `conf`, exactly where the loop body calls it. -/

/-- `GPS_MATCH_THRESHOLD` (config/settings.py line 30), on the 0-1 scale. -/
def GPS_MATCH_THRESHOLD : ℚ := 8 / 10

/-- `DEFAULT_TIME_WINDOW` (config/settings.py line 34), in minutes. -/
def DEFAULT_TIME_WINDOW : Int := 30

structure GpsStop where
  device : String
  address : String
  startTime : Int
  endTime : Int
deriving DecidableEq, Repr

structure JobForGps where
  device : String
  address : String
  firstAppmnt : Option Int
deriving DecidableEq, Repr

/-- The window filter of integrator.py lines 72-76: stops of the job's device
whose `Start Time` lies in `[scheduled - w, scheduled + w]` (both ends
inclusive), in table order. -/
def candidateStops (gps : List GpsStop) (dev : String) (t w : Int) :
    List GpsStop :=
  gps.filter (fun s =>
    s.device == dev && decide (t - w ≤ s.startTime) && decide (s.startTime ≤ t + w))

/-- The best-match loop of integrator.py lines 83-93: scan candidates in
order, replacing the current best only on `confidence > best_confidence and
confidence >= GPS_MATCH_THRESHOLD * 100`. -/
def bestStopLoop (conf : String → String → ℚ) (jobAddr : String) :
    List GpsStop → Option GpsStop → ℚ → Option GpsStop × ℚ
  | [], best, bestC => (best, bestC)
  | s :: rest, best, bestC =>
    let c := conf jobAddr s.address
    if bestC < c ∧ GPS_MATCH_THRESHOLD * 100 ≤ c then
      bestStopLoop conf jobAddr rest (some s) c
    else
      bestStopLoop conf jobAddr rest best bestC

/-- `match_jobs_to_gps_stops` for one job row: jobs with device `UNKNOWN` or
no appointment are skipped (lines 62-64); otherwise the best in-window stop
is selected, `none` meaning the GPS fields stay null. -/
def match_jobs_to_gps_stops (conf : String → String → ℚ) (w : Int)
    (job : JobForGps) (gps : List GpsStop) : Option GpsStop :=
  if job.device = "UNKNOWN" then none
  else
    match job.firstAppmnt with
    | none => none
    | some t =>
      (bestStopLoop conf job.address (candidateStops gps job.device t w) none 0).1

/-! ## Driving metrics (`calculate_driving_metrics`, metrics.py lines 341-403)

Alert counts per type feed a weighted score, a 0-100 driving score, and a
`pd.cut` bucketing into named categories. -/

/-- `ALERT_WEIGHTS` (config/alert_weights.py lines 6-13). -/
def ALERT_WEIGHTS : List (String × Int) :=
  [("Harsh Braking", -5), ("Harsh Cornering", -3), ("Harsh Acceleration", -4),
   ("Speeding Over", -7), ("Engine Idle", -2), ("After Hours", -6)]

/-- `DRIVING_SCORE_THRESHOLDS` (config/alert_weights.py lines 16-22), in the
dictionary's insertion order. -/
def DRIVING_SCORE_THRESHOLDS : List (String × ℚ) :=
  [("EXCELLENT", 90), ("GOOD", 75), ("AVERAGE", 60), ("BELOW_AVERAGE", 40),
   ("POOR", 0)]

/-- Weighted alert score of one technician row (metrics.py lines 379-385):
`sum(count_by_type * weight)`. -/
def weightedScore (counts : List (String × Nat)) : Int :=
  (counts.map (fun p => (p.2 : Int) * ((ALERT_WEIGHTS.lookup p.1).getD 0))).sum

/-- `max_possible_bad_score = sum(ALERT_WEIGHTS.values()) * 100`
(metrics.py line 388). -/
def maxPossibleBadScore : Int := ((ALERT_WEIGHTS.map Prod.snd).sum) * 100

/-- `DrivingScore = clip(100 - WeightedScore / max_possible_bad_score * 100,
0, 100)` (metrics.py lines 389-390). -/
def drivingScore (counts : List (String × Nat)) : ℚ :=
  min (max (100 - (weightedScore counts : ℚ) / (maxPossibleBadScore : ℚ) * 100) 0) 100

/-- The bin edges passed to `pd.cut` (metrics.py line 395):
`[0] + list(DRIVING_SCORE_THRESHOLDS.values()) + [100]`. -/
def drivingCutBins : List ℚ :=
  0 :: ((DRIVING_SCORE_THRESHOLDS.map Prod.snd) ++ [100])

/-- The labels passed to `pd.cut` (metrics.py line 396). -/
def drivingCutLabels : List String :=
  (DRIVING_SCORE_THRESHOLDS.map Prod.fst) ++ ["Excellent"]

/-- pandas' precondition on `pd.cut` bin edges: they must increase strictly
monotonically, else `ValueError` is raised. -/
def binsIncreasing : List ℚ → Bool
  | [] => true
  | [_] => true
  | a :: b :: t => decide (a < b) && binsIncreasing (b :: t)

/-- Interval selection of `pd.cut(x, bins, labels, right=True)` once the bins
are valid: the label of the first interval `(lo, hi]` containing `x`, `none`
(NaN) when `x` falls outside every bin. -/
def pdCutPick (x : ℚ) : List ℚ → List String → Option String
  | lo :: hi :: bins, lab :: labs =>
    if lo < x ∧ x ≤ hi then some lab else pdCutPick x (hi :: bins) labs
  | _, _ => none

/-- `pd.cut` itself: raises `ValueError` on non-monotone bins, otherwise
buckets the value. -/
def pdCut (x : ℚ) (bins : List ℚ) (labels : List String) :
    Except String (Option String) :=
  if binsIncreasing bins then Except.ok (pdCutPick x bins labels)
  else Except.error "bins must increase monotonically"

/-- The `DrivingCategory` assignment of metrics.py lines 393-398. -/
def assignDrivingCategory (score : ℚ) : Except String (Option String) :=
  pdCut score drivingCutBins drivingCutLabels

/-! ## Cancellation reason extraction (`extract_cancellation_reason`,
text_mining.py lines 15-62) -/

/-- `CANCEL_CATEGORIES` (config/cancel_categories.py lines 5-56), in the
dictionary's insertion order. -/
def CANCEL_CATEGORIES : List (String × List String) :=
  [("CUSTOMER_INITIATED",
    ["customer cancel", "client cancel", "cust canceled",
     "cancelled by customer", "cstmr declined", "customer declined"]),
   ("FIXED_ITSELF",
    ["appliance starting working", "started working", "fixed itself",
     "working after", "unplugging"]),
   ("SCHEDULING_CONFLICT",
    ["reschedule", "schedule conflict", "not available", "changed appmnt",
     "chngd appmnt"]),
   ("PAYMENT_ISSUE",
    ["payment", "credit card", "cc for service", "service"]),
   ("NO_SHOW",
    ["no show", "not home", "customer not present", "nobody home",
     "not at home"]),
   ("PRICE_TOO_HIGH",
    ["too expensive", "cost too high", "price too high", "cheaper elsewhere",
     "not worth"]),
   ("CHANGED_MIND",
    ["changed mind", "decided against", "decided not to", "will try later",
     "will fix later"]),
   ("OTHER", [])]

/-- `CATEGORY_PRIORITY` (config/cancel_categories.py lines 59-68). -/
def CATEGORY_PRIORITY : List String :=
  ["CUSTOMER_INITIATED", "PRICE_TOO_HIGH", "NO_SHOW", "SCHEDULING_CONFLICT",
   "CHANGED_MIND", "FIXED_ITSELF", "PAYMENT_ISSUE", "OTHER"]

/-- `keyword.lower() in description.lower()` for one keyword. -/
def keywordHit (desc kw : String) : Bool :=
  containsSub (lowerChars desc.data) (lowerChars kw.data)

/-- Keyword hit count of one category (text_mining.py lines 39-42). -/
def countHits (desc : String) (kws : List String) : Nat :=
  kws.countP (keywordHit desc)

/-- The `category_matches` dictionary (text_mining.py lines 31-46): category
name and hit count for every category with a nonempty keyword list and at
least one hit, in the table's insertion order. -/
def categoryMatches (desc : String) : List (String × Nat) :=
  CANCEL_CATEGORIES.filterMap (fun p =>
    if p.2 = [] then none
    else if countHits desc p.2 = 0 then none
    else some (p.1, countHits desc p.2))

/-- Keyword list of a category (used for `len(CANCEL_CATEGORIES[category])`). -/
def keywordsOf (cat : String) : List String :=
  (CANCEL_CATEGORIES.lookup cat).getD []

/-- `min(category_matches[category] / len(CANCEL_CATEGORIES[category]), 1.0)`
(text_mining.py lines 56 and 61). -/
def confidenceFor (desc : String) (cat : String) : ℚ :=
  min ((countHits desc (keywordsOf cat) : ℚ) / ((keywordsOf cat).length : ℚ)) 1

/-- `extract_cancellation_reason` (text_mining.py lines 15-62).  A missing or
empty description yields `("UNKNOWN", 0)`; no keyword hit yields
`("OTHER", 0)`; with several matching categories the first category of
`CATEGORY_PRIORITY` that matched wins; a single match wins directly.  The
final `match` arm mirrors Python's fall-through to
`list(category_matches.keys())[0]`. -/
def extract_cancellation_reason (desc : Option String) : String × ℚ :=
  match desc with
  | none => ("UNKNOWN", 0)
  | some d =>
    if d = "" then ("UNKNOWN", 0)
    else
      let ms := categoryMatches d
      if ms = [] then ("OTHER", 0)
      else if 1 < ms.length then
        match CATEGORY_PRIORITY.find? (fun c => (ms.lookup c).isSome) with
        | some c => (c, confidenceFor d c)
        | none =>
          match ms.head? with
          | some p => (p.1, confidenceFor d p.1)
          | none => ("OTHER", 0)
      else
        match ms.head? with
        | some p => (p.1, confidenceFor d p.1)
        | none => ("OTHER", 0)

/-! ## Address standardisation (`standardize_address`, cleaner.py lines 16-62)

The regex substitutions of the source are modelled on `List Char`, with
pandas/Python `re.sub` semantics: scan left to right, replace non-overlapping
matches, resume after each match.  For a pattern `\bFULL\b` whose pattern and
replacement consist of word characters only, a match is exactly a maximal run
of word characters equal to `FULL`. -/

/-- Flush the pending word run `cur` (held reversed): if it equals the
pattern `w` it is replaced by `r`, otherwise it is emitted unchanged. -/
def flushRun (w r cur : List Char) : List Char :=
  if cur.reverse = w then r else cur.reverse

/-- Scanner for `re.sub(r'\b' + full + r'\b', abbr, address)` with a pattern
made of word characters: a match is exactly a maximal word-character run
equal to the pattern.  `cur` is the word run in progress, reversed. -/
def subWordAux (w r cur : List Char) : List Char → List Char
  | [] => if cur = [] then [] else flushRun w r cur
  | c :: cs =>
    if isWordChar c then subWordAux w r (c :: cur) cs
    else if cur = [] then c :: subWordAux w r [] cs
    else flushRun w r cur ++ c :: subWordAux w r [] cs

/-- `re.sub(r'\b' + full + r'\b', abbr, address)` for a full word and an
abbreviation made of word characters: replace every maximal word-character
run equal to `w` by `r`. -/
def subWord (w r s : List Char) : List Char :=
  subWordAux w r [] s

/-- Scanner for `re.sub(r'\b' + abbr + r'\.', abbr, address)`: a match is a
maximal word-character run equal to `abbr` followed immediately by a literal
period, in which case the period is dropped.  `cur` is the word run in
progress, reversed. -/
def subAbbrDotAux (w cur : List Char) : List Char → List Char
  | [] => if cur = [] then [] else cur.reverse
  | c :: cs =>
    if isWordChar c then subAbbrDotAux w (c :: cur) cs
    else if c = '.' ∧ cur ≠ [] ∧ cur.reverse = w then
      w ++ subAbbrDotAux w [] cs
    else if cur = [] then c :: subAbbrDotAux w [] cs
    else cur.reverse ++ c :: subAbbrDotAux w [] cs

/-- `re.sub(r'\b' + abbr + r'\.', abbr, address)`: replace `abbr` followed by
a literal period, when preceded by a word boundary. -/
def subAbbrDot (w s : List Char) : List Char :=
  subAbbrDotAux w [] s

/-- `abbrev_map` (cleaner.py lines 32-46), in insertion order. -/
def abbrevPairs : List (List Char × List Char) :=
  [("STREET".data, "ST".data), ("AVENUE".data, "AVE".data),
   ("BOULEVARD".data, "BLVD".data), ("DRIVE".data, "DR".data),
   ("LANE".data, "LN".data), ("ROAD".data, "RD".data),
   ("COURT".data, "CT".data), ("CIRCLE".data, "CIR".data),
   ("PLACE".data, "PL".data), ("HIGHWAY".data, "HWY".data),
   ("APARTMENT".data, "APT".data), ("SUITE".data, "STE".data),
   ("CALIFORNIA".data, "CA".data)]

/-- One iteration of the abbreviation loop (cleaner.py lines 48-52): fold the
full form, then fold `ABBR.` to `ABBR`. -/
def applyAbbrevRule (s : List Char) (p : List Char × List Char) : List Char :=
  subAbbrDot p.2 (subWord p.1 p.2 s)

/-- The abbreviation loop over all pairs. -/
def foldAbbrevs (s : List Char) : List Char :=
  abbrevPairs.foldl applyAbbrevRule s

/-- Scanner for `re.sub(r'\s+', ' ', address)`: `inWs` records whether the
previous character was whitespace (in which case the single replacement
space has already been emitted). -/
def collapseWsAux (inWs : Bool) : List Char → List Char
  | [] => []
  | c :: cs =>
    if isWsChar c then
      if inWs then collapseWsAux true cs
      else ' ' :: collapseWsAux true cs
    else c :: collapseWsAux false cs

/-- `re.sub(r'\s+', ' ', address)` (cleaner.py line 55): each maximal
whitespace run becomes a single space. -/
def collapseWs (s : List Char) : List Char :=
  collapseWsAux false s

/-- Scanner for `re.sub(pc + r'\s*' + pc, pc, address)`: `pending = some buf`
means a candidate first `pc` was read, followed so far by the reversed
whitespace buffer `buf`; a second `pc` completes the match (the whole match
is replaced by a single `pc`), any other character abandons it verbatim.
A match can only start at `pc`, so the abandoned characters need not be
rescanned. -/
def subPunctAux (pc : Char) (pending : Option (List Char)) :
    List Char → List Char
  | [] =>
    match pending with
    | none => []
    | some buf => pc :: buf.reverse
  | c :: cs =>
    match pending with
    | none =>
      if c = pc then subPunctAux pc (some []) cs
      else c :: subPunctAux pc none cs
    | some buf =>
      if c = pc then pc :: subPunctAux pc none cs
      else if isWsChar c then subPunctAux pc (some (c :: buf)) cs
      else pc :: buf.reverse ++ c :: subPunctAux pc none cs

/-- `re.sub(pc + r'\s*' + pc, pc, address)` for a punctuation character `pc`
(cleaner.py lines 56-57): two occurrences of `pc` separated only by
whitespace collapse to one, scanning left to right without overlap. -/
def subPunctPair (pc : Char) (s : List Char) : List Char :=
  subPunctAux pc none s

/-- `re.sub(r',\s*USA$', '', address)` (cleaner.py line 60): cut the string
at the first comma that is followed only by whitespace and a final `USA`. -/
def stripCommaUSA : List Char → List Char
  | [] => []
  | c :: cs =>
    if c = ',' && (cs.dropWhile isWsChar == "USA".data) then []
    else c :: stripCommaUSA cs

/-- `standardize_address` (cleaner.py lines 16-62). -/
def standardize_address (s : String) : String :=
  if s = "" then ""
  else String.mk (pyStrip (stripCommaUSA (subPunctPair '.' (subPunctPair ','
    (collapseWs (foldAbbrevs (upperChars (pyStrip s.data))))))))

/-- Scanner collecting maximal word-character runs; `cur` is the run in
progress, reversed. -/
def wordRunsAux (cur : List Char) : List Char → List (List Char)
  | [] => if cur = [] then [] else [cur.reverse]
  | c :: cs =>
    if isWordChar c then wordRunsAux (c :: cur) cs
    else if cur = [] then wordRunsAux [] cs
    else cur.reverse :: wordRunsAux [] cs

/-- Maximal word-character runs of a string, in order.  A standalone
occurrence of a fully-word-character pattern is exactly a member of this
list. -/
def wordRuns (s : List Char) : List (List Char) :=
  wordRunsAux [] s

/-- Whether a list starts with a whitespace character. -/
def headWs (l : List Char) : Bool :=
  match l.head? with
  | some c => isWsChar c
  | none => false

/-- Normal form produced by `collapseWs`: every whitespace character is a
single space and no two whitespace characters are adjacent. -/
def collB : List Char → Bool
  | [] => true
  | c :: cs => (!isWsChar c || c = ' ') && !(isWsChar c && headWs cs) && collB cs

/-! ## Technician identity mapping (`map_tech_codes_to_devices`,
integrator.py lines 17-36, and `standardize_tech_code`, cleaner.py
lines 64-109) -/

/-- `TECH_MAPPING` (config/mapping.py lines 6-15). -/
def TECH_MAPPING : List (String × String) :=
  [("James", "JS"), ("Joe", "JD"), ("Bianca", "BB"), ("Ricardo (NEW)", "RR"),
   ("Shane", "SS"), ("Porter", "AP"), ("Dane", "DM"), ("Sean", "SF")]

/-- `TECH_REVERSE_MAPPING = {v: k for k, v in TECH_MAPPING.items()}`
(config/mapping.py line 18). -/
def TECH_REVERSE_MAPPING : List (String × String) :=
  TECH_MAPPING.map (fun p => (p.2, p.1))

/-- `tech_variations` (cleaner.py lines 81-97). -/
def techVariations : List (String × String) :=
  [("ROBERT", "RR"), ("RICK", "RR"), ("RICARDO", "RR"), ("JAMES", "JS"),
   ("JIM", "JS"), ("JOSEPH", "JD"), ("JOEY", "JD"), ("DANIEL", "DM"),
   ("DANNY", "DM"), ("SHANE", "SS"), ("SHAWN", "SF"), ("SEAN", "SF"),
   ("BIANCA", "BB"), ("ADAM", "AP"), ("PORTER", "AP")]

/-- `valid_codes = set(TECH_REVERSE_MAPPING.keys()) | set(TECH_MAPPING.keys())`
(cleaner.py line 104), as a membership list. -/
def validCodes : List String :=
  TECH_REVERSE_MAPPING.map Prod.fst ++ TECH_MAPPING.map Prod.fst

/-- `str(x).strip().upper()`. -/
def pyStripUpper (s : String) : String :=
  String.mk (upperChars (pyStrip s.data))

/-- `standardize_tech_code` (cleaner.py lines 64-109): missing or empty input
becomes `UNKNOWN`; otherwise the code is trimmed and uppercased, name
variations fold to canonical codes, and anything else passes through. -/
def standardize_tech_code (tc : Option String) : String :=
  match tc with
  | none => "UNKNOWN"
  | some s =>
    if s = "" then "UNKNOWN"
    else
      let t := pyStripUpper s
      match techVariations.lookup t with
      | some v => v
      | none => if t ∈ validCodes then t else t

/-- `map_tech_codes_to_devices` for one code (integrator.py line 33):
`TECH_REVERSE_MAPPING.get(x, 'UNKNOWN') if x in TECH_REVERSE_MAPPING else
'UNKNOWN'`. -/
def map_tech_codes_to_devices (x : String) : String :=
  (TECH_REVERSE_MAPPING.lookup x).getD "UNKNOWN"

/-- The code-to-device lookup of the spec: standardise the technician code,
then resolve it against the reverse mapping. -/
def deviceForTech (tc : Option String) : String :=
  map_tech_codes_to_devices (standardize_tech_code tc)

/-! ## Duration parsing (`parse_duration`, metrics.py lines 551-573) -/

/-- Numeric value of a digit run. -/
def digitsToNat (ds : List Char) : Nat :=
  ds.foldl (fun a c => a * 10 + (c.toNat - 48)) 0

/-- Parse an unsigned decimal literal `digits [. digits] [(e|E) [sign]
digits]` as an exact rational. -/
def parseUnsignedFloat (cs : List Char) : Option ℚ :=
  let intPart := cs.takeWhile Char.isDigit
  let rest := cs.dropWhile Char.isDigit
  let fracRest :=
    match rest with
    | '.' :: r => some (r.takeWhile Char.isDigit, r.dropWhile Char.isDigit)
    | r => some ([], r)
  match fracRest with
  | some (frac, rest2) =>
    if intPart = [] ∧ frac = [] then none
    else
      let mantissa : ℚ :=
        mkRat (digitsToNat (intPart ++ frac)) (10 ^ frac.length)
      match rest2 with
      | [] => some mantissa
      | e :: r3 =>
        if e = 'e' ∨ e = 'E' then
          let (sgn, digs) :=
            match r3 with
            | '+' :: r4 => ((1 : Int), r4)
            | '-' :: r4 => ((-1 : Int), r4)
            | r4 => ((1 : Int), r4)
          if digs ≠ [] ∧ digs.all Char.isDigit then
            some (mantissa * (10 : ℚ) ^ (sgn * (digitsToNat digs : Int)))
          else none
        else none
  | none => none

/-- Python `float(s)`: strip whitespace, optional sign, then an unsigned
float literal; anything else raises `ValueError`.  (The special forms
`inf`/`nan` do not occur in duration data and are not modelled.) -/
def pyFloat (s : String) : Except String ℚ :=
  let cs := pyStrip s.data
  let parsed :=
    match cs with
    | '+' :: r => parseUnsignedFloat r
    | '-' :: r => (parseUnsignedFloat r).map Neg.neg
    | r => parseUnsignedFloat r
  match parsed with
  | some q => Except.ok q
  | none => Except.error "ValueError"

/-- Python `int()` on a float value: truncation toward zero. -/
def pyIntTrunc (q : ℚ) : Int :=
  if q < 0 then -((-q).floor) else q.floor

/-- Python `s.split(':')` on a character list: split at every colon, keeping
empty parts. -/
def splitOnColon : List Char → List (List Char)
  | [] => [[]]
  | c :: cs =>
    if c = ':' then [] :: splitOnColon cs
    else
      match splitOnColon cs with
      | p :: ps => (c :: p) :: ps
      | [] => [[c]]

/-- `parse_duration` (metrics.py lines 551-573): `None`/empty input yields
`0`; otherwise the string splits on `:` and is interpreted as `HH:MM:SS`,
`MM:SS`, or bare seconds (Python's `else` branch, which also swallows four
or more parts by reading only the first).  Each part goes through `float`,
so a non-numeric part raises `ValueError`. -/
def parse_duration (d : Option String) : Except String Int :=
  match d with
  | none => Except.ok 0
  | some s =>
    if s = "" then Except.ok 0
    else
      match splitOnColon s.data with
      | [hs, ms, ss] => do
        let h ← pyFloat (String.mk hs)
        let m ← pyFloat (String.mk ms)
        let sec ← pyFloat (String.mk ss)
        Except.ok (pyIntTrunc (h * 3600 + m * 60 + sec))
      | [ms, ss] => do
        let m ← pyFloat (String.mk ms)
        let sec ← pyFloat (String.mk ss)
        Except.ok (pyIntTrunc (m * 60 + sec))
      | p :: _ => do
        let v ← pyFloat (String.mk p)
        Except.ok (pyIntTrunc v)
      | [] => Except.error "ValueError"

/-! ## Cancellation flags over a job table
(`extract_cancellation_reasons_from_df`, text_mining.py lines 64-157) -/

structure JobRow where
  jobCanceled : Option Bool
  status : Option String
  workDescription : Option String
deriving Repr, DecidableEq

/-- A job table: which cancellation-indicator columns exist, and the rows. -/
structure JobTable where
  hasJobCanceled : Bool
  hasStatus : Bool
  hasWorkDescription : Bool
  rows : List JobRow

/-- `Status.str.contains('Cancel|Cancelled|Canceled', case=False, na=False)`
for one cell (text_mining.py line 92). -/
def statusCancelHit : Option String → Bool
  | none => false
  | some s =>
    containsSub (lowerChars s.data) "cancel".data ||
    containsSub (lowerChars s.data) "cancelled".data ||
    containsSub (lowerChars s.data) "canceled".data

/-- `WorkDescription.str.contains('cancel|cancelled|canceled|call off|not
home', case=False, na=False)` for one cell (text_mining.py lines 100-101). -/
def textCancelHit : Option String → Bool
  | none => false
  | some s =>
    containsSub (lowerChars s.data) "cancel".data ||
    containsSub (lowerChars s.data) "cancelled".data ||
    containsSub (lowerChars s.data) "canceled".data ||
    containsSub (lowerChars s.data) "call off".data ||
    containsSub (lowerChars s.data) "not home".data

/-- The combined `canceled_mask` entry for one row (text_mining.py
lines 85-105): the or of the indicator columns that exist. -/
def rowIndicator (t : JobTable) (r : JobRow) : Bool :=
  (t.hasJobCanceled && (r.jobCanceled == some true)) ||
  (t.hasStatus && statusCancelHit r.status) ||
  (t.hasWorkDescription && textCancelHit r.workDescription)

/-- Whether any cancellation-indicator column exists (else the function
returns early with a warning, text_mining.py lines 108-110). -/
def hasAnyIndicatorCol (t : JobTable) : Bool :=
  t.hasJobCanceled || t.hasStatus || t.hasWorkDescription

/-- The mask fabricated from `np.random.choice` (text_mining.py
lines 117-122): row `i` is marked canceled exactly when `i` is among the
randomly chosen indices `pick`. -/
def fabricatedMask (t : JobTable) (pick : List Nat) : List Bool :=
  (List.range t.rows.length).map (fun i => decide (i ∈ pick))

/-- The company-wide `CancellationRate` computed by
`extract_cancellation_reasons_from_df` (text_mining.py lines 112-139):
`none` when no indicator column exists (the column is never added);
otherwise the final mask's true-count over the row count, where a zero-hit
mask on a nonempty table is replaced by the fabricated random mask. -/
def companyCancelRate (t : JobTable) (pick : List Nat) : Option ℚ :=
  if hasAnyIndicatorCol t then
    let mask := t.rows.map (rowIndicator t)
    let mask2 :=
      if mask.count true = 0 ∧ t.rows.length > 0 then fabricatedMask t pick
      else mask
    if t.rows.length > 0 then
      some ((mask2.count true : ℚ) / (t.rows.length : ℚ))
    else some 0
  else none

/-! ## Synthetic revenue generation (`calculate_tech_revenue_metrics`,
metrics.py lines 17-202)

The function comments `# Set random seed for reproducibility` and seeds
`np.random`, but the revenue figures are drawn from the separate, unseeded
Python `random` module (`random.randint`, `random.uniform`, metrics.py
lines 88, 119, 126-127).  The embedding therefore takes the drawn values as
explicit inputs: one `RevenueDraws` bundle per technician. -/

structure RevenueDraws where
  tier : Nat
  variation : ℚ
  laborPct : ℚ
  partsPct : ℚ
deriving Repr

/-- The ranges guaranteed by `random.randint(1, 5)`,
`random.uniform(-0.1, 0.1)`, `random.uniform(0.4, 0.6)` and
`random.uniform(0.25, 0.45)`. -/
def validDraws (d : RevenueDraws) : Prop :=
  1 ≤ d.tier ∧ d.tier ≤ 5 ∧
  -(1 / 10 : ℚ) ≤ d.variation ∧ d.variation ≤ 1 / 10 ∧
  (2 / 5 : ℚ) ≤ d.laborPct ∧ d.laborPct ≤ 3 / 5 ∧
  (1 / 4 : ℚ) ≤ d.partsPct ∧ d.partsPct ≤ 9 / 20

/-- `avg_job_value = 225 * (0.8 + tier * 0.1) * (1 + variation)`
(metrics.py lines 105-120). -/
def avgJobValue (d : RevenueDraws) : ℚ :=
  225 * (8 / 10 + (d.tier : ℚ) / 10) * (1 + d.variation)

/-- `total_revenue = avg_job_value * jobs` (metrics.py line 123), the
`TotalRevenue` cell of the technician's metrics row. -/
def techTotalRevenue (jobs : Nat) (d : RevenueDraws) : ℚ :=
  avgJobValue d * (jobs : ℚ)

/-- `labor = total_revenue * labor_pct` (metrics.py line 131). -/
def techTotalLabor (jobs : Nat) (d : RevenueDraws) : ℚ :=
  techTotalRevenue jobs d * d.laborPct

/-! # Theorems -/

/-! ## Generic helper lemmas -/

theorem lookup_some_mem {α β : Type} [BEq α] [LawfulBEq α] {l : List (α × β)}
    {a : α} {b : β} (h : l.lookup a = some b) : (a, b) ∈ l := by
  induction l with
  | nil => simp [List.lookup] at h
  | cons p t ih =>
    rcases p with ⟨k, v⟩
    rw [List.lookup_cons] at h
    by_cases hk : a == k
    · simp only [hk, if_pos] at h
      obtain rfl : v = b := by simpa using h
      obtain rfl : a = k := by simpa using hk
      exact List.mem_cons_self _ _
    · simp only [hk] at h
      exact List.mem_cons_of_mem _ (ih (by simpa [hk] using h))

theorem sum_map_filter_partition (p : SalesRecord → Bool)
    (f : SalesRecord → Int) (l : List SalesRecord) :
    ((l.filter p).map f).sum + ((l.filter (fun a => !p a)).map f).sum =
      (l.map f).sum := by
  induction l with
  | nil => simp
  | cons a t ih =>
    by_cases h : p a <;>
      simp only [List.filter_cons, h, Bool.not_true, Bool.not_false, if_true,
        if_false, List.map_cons, List.sum_cons, Bool.false_eq_true,
        Bool.true_eq_false, ite_true, ite_false] <;>
      omega

/-! ## C2: deduplication of sales records -/

theorem dedupSalesAux_mem {seen : List (String × String)}
    {l : List SalesRecord} {s : SalesRecord}
    (h : s ∈ dedupSalesAux seen l) : s ∈ l ∧ salesKey s ∉ seen := by
  induction l generalizing seen with
  | nil => simp [dedupSalesAux] at h
  | cons r rs ih =>
    rw [dedupSalesAux] at h
    by_cases hk : salesKey r ∈ seen
    · rw [if_pos hk] at h
      obtain ⟨h1, h2⟩ := ih h
      exact ⟨List.mem_cons_of_mem _ h1, h2⟩
    · rw [if_neg hk] at h
      rcases List.mem_cons.mp h with rfl | h2
      · exact ⟨List.mem_cons_self _ _, hk⟩
      · obtain ⟨h3, h4⟩ := ih h2
        refine ⟨List.mem_cons_of_mem _ h3, fun hc => h4 ?_⟩
        exact List.mem_cons_of_mem _ hc

theorem dedupSalesAux_pairwise (seen : List (String × String))
    (l : List SalesRecord) :
    (dedupSalesAux seen l).Pairwise (fun a b => salesKey a ≠ salesKey b) := by
  induction l generalizing seen with
  | nil => simp [dedupSalesAux]
  | cons r rs ih =>
    rw [dedupSalesAux]
    by_cases hk : salesKey r ∈ seen
    · rw [if_pos hk]; exact ih seen
    · rw [if_neg hk]
      refine List.Pairwise.cons ?_ (ih _)
      intro t ht
      have := (dedupSalesAux_mem ht).2
      intro hkey
      exact this (hkey ▸ List.mem_cons_self _ _)

theorem dedupSalesAux_find {seen : List (String × String)}
    {l : List SalesRecord} {s : SalesRecord}
    (h : s ∈ dedupSalesAux seen l) :
    l.find? (fun t => salesKeyMatches t s) = some s := by
  induction l generalizing seen with
  | nil => simp [dedupSalesAux] at h
  | cons r rs ih =>
    rw [dedupSalesAux] at h
    have keyeq : ∀ a b : SalesRecord,
        salesKeyMatches a b = true ↔ salesKey a = salesKey b := by
      intro a b
      simp [salesKeyMatches, salesKey, Prod.ext_iff]
    by_cases hk : salesKey r ∈ seen
    · rw [if_pos hk] at h
      have hs := (dedupSalesAux_mem h).2
      have hne : salesKeyMatches r s = false := by
        rw [← Bool.not_eq_true, keyeq]
        intro hc
        exact hs (hc ▸ hk)
      rw [List.find?_cons, hne]
      exact ih h
    · rw [if_neg hk] at h
      rcases List.mem_cons.mp h with rfl | h2
      · have : salesKeyMatches s s = true := by rw [keyeq]
        rw [List.find?_cons, this]
      · have hs := (dedupSalesAux_mem h2).2
        have hne : salesKeyMatches r s = false := by
          rw [← Bool.not_eq_true, keyeq]
          intro hc
          exact hs (hc ▸ List.mem_cons_self _ _)
        rw [List.find?_cons, hne]
        exact ih h2

theorem dedupSalesAux_cover {seen : List (String × String)}
    {l : List SalesRecord} {r : SalesRecord} (h : r ∈ l) :
    salesKey r ∈ seen ∨ ∃ s ∈ dedupSalesAux seen l, salesKey s = salesKey r := by
  induction l generalizing seen with
  | nil => simp at h
  | cons a rs ih =>
    rw [dedupSalesAux]
    by_cases hk : salesKey a ∈ seen
    · rw [if_pos hk]
      rcases List.mem_cons.mp h with rfl | h2
      · exact Or.inl hk
      · exact ih h2
    · rw [if_neg hk]
      rcases List.mem_cons.mp h with rfl | h2
      · exact Or.inr ⟨r, List.mem_cons_self _ _, rfl⟩
      · rcases @ih (salesKey a :: seen) h2 with hin | ⟨s, hs1, hs2⟩
        · rcases List.mem_cons.mp hin with heq | hin2
          · exact Or.inr ⟨a, List.mem_cons_self _ _, heq.symm⟩
          · exact Or.inl hin2
        · exact Or.inr ⟨s, List.mem_cons_of_mem _ hs1, hs2⟩

/-- C2: for every sales table with `TechCode` and `InvoiceNumber` columns,
`merge_sales_with_jobs` deduplicates so that at most one record per
`(technician, invoice)` pair reaches the join (the surviving records have
pairwise distinct keys), every key of the input is still represented, and
the survivor of each key is the first-occurring record of that key
(first-seen wins): searching the raw table for the survivor's key finds the
survivor itself. -/
theorem dedup_sales_unique_first_seen (l : List SalesRecord) :
    ((dedupSales l).Pairwise (fun a b => salesKey a ≠ salesKey b)) ∧
    (∀ s ∈ dedupSales l, l.find? (fun t => salesKeyMatches t s) = some s) ∧
    (∀ r ∈ l, ∃ s ∈ dedupSales l, salesKey s = salesKey r) := by
  refine ⟨dedupSalesAux_pairwise [] l, ?_, ?_⟩
  · intro s hs
    exact dedupSalesAux_find hs
  · intro r hr
    rcases @dedupSalesAux_cover [] l r hr with hin | h
    · simp at hin
    · exact h

/-- Witness for C2 at a concrete table with a duplicated
`(technician, invoice)` pair: the first-occurring record survives and is
what a search for its key finds first. -/
theorem dedup_sales_unique_first_seen_witness :
    [SalesRecord.mk "JS" "1001" 5 0 0 0 5, SalesRecord.mk "JS" "1001" 7 0 0 0 7,
      SalesRecord.mk "BB" "1002" 3 0 0 0 3].find?
        (fun t => salesKeyMatches t (SalesRecord.mk "JS" "1001" 5 0 0 0 5)) =
      some (SalesRecord.mk "JS" "1001" 5 0 0 0 5) :=
  (dedup_sales_unique_first_seen
      [SalesRecord.mk "JS" "1001" 5 0 0 0 5, SalesRecord.mk "JS" "1001" 7 0 0 0 7,
        SalesRecord.mk "BB" "1002" 3 0 0 0 3]).2.1
    (SalesRecord.mk "JS" "1001" 5 0 0 0 5) (by decide)

/-! ## C1: no double counting in the sales merge -/

theorem dedupSalesAux_sublist (seen : List (String × String))
    (l : List SalesRecord) : (dedupSalesAux seen l).Sublist l := by
  induction l generalizing seen with
  | nil => simp [dedupSalesAux]
  | cons r rs ih =>
    rw [dedupSalesAux]
    by_cases hk : salesKey r ∈ seen
    · rw [if_pos hk]
      exact (ih seen).cons _
    · rw [if_neg hk]
      exact (ih _).cons₂ _

/-- The join key of a job row, matching the sales key layout. -/
theorem jobKey_filter_eq (j : JobKey) (d : List SalesRecord) :
    d.filter (fun s => s.techCode == j.techCode && s.invoiceNumber == j.jobNumber) =
      d.filter (fun s => decide (salesKey s = (j.techCode, j.jobNumber))) := by
  refine List.filter_congr ?_
  intro s _
  by_cases h1 : s.techCode = j.techCode <;>
    by_cases h2 : s.invoiceNumber = j.jobNumber <;>
    simp [salesKey, Prod.ext_iff, h1, h2]

theorem contribution_eq (j : JobKey) (f : SalesRecord → Int)
    (ms : List SalesRecord) :
    mergedSumExact f
      (match ms with
       | [] => [(j, none)]
       | ms => ms.map (fun s => (j, some s))) = (ms.map f).sum := by
  cases ms with
  | nil => simp [mergedSumExact]
  | cons a t =>
    simp only [mergedSumExact, List.map_map]
    congr 1

theorem sum_nonneg_of_mem (d : List SalesRecord) (f : SalesRecord → Int)
    (hf : ∀ s ∈ d, 0 ≤ f s) : 0 ≤ (d.map f).sum := by
  induction d with
  | nil => simp
  | cons a t ih =>
    simp only [List.map_cons, List.sum_cons]
    have h1 := hf a (List.mem_cons_self _ _)
    have h2 := ih (fun s hs => hf s (List.mem_cons_of_mem _ hs))
    omega

theorem disjoint_filter_sums_le (jobs : List JobKey) (d : List SalesRecord)
    (f : SalesRecord → Int) (hf : ∀ s ∈ d, 0 ≤ f s)
    (hkeys : jobs.Pairwise
      (fun a b => (a.techCode, a.jobNumber) ≠ (b.techCode, b.jobNumber))) :
    ((jobs.map (fun j =>
      ((d.filter (fun s => decide (salesKey s = (j.techCode, j.jobNumber)))).map
        f).sum)).sum) ≤ (d.map f).sum := by
  induction jobs generalizing d with
  | nil =>
    simp only [List.map_nil, List.sum_nil]
    exact sum_nonneg_of_mem d f hf
  | cons j rest ih =>
    rw [List.pairwise_cons] at hkeys
    obtain ⟨hj, hrest⟩ := hkeys
    simp only [List.map_cons, List.sum_cons]
    set P : SalesRecord → Bool :=
      fun s => decide (salesKey s = (j.techCode, j.jobNumber)) with hP
    have hfilters : ∀ j' ∈ rest,
        d.filter (fun s => decide (salesKey s = (j'.techCode, j'.jobNumber))) =
          (d.filter (fun s => !P s)).filter
            (fun s => decide (salesKey s = (j'.techCode, j'.jobNumber))) := by
      intro j' hj'
      rw [List.filter_filter]
      refine (List.filter_congr ?_)
      intro s _
      by_cases hs : salesKey s = (j'.techCode, j'.jobNumber)
      · have hPs : P s = false := by
          rw [hP]
          simp only [decide_eq_false_iff_not]
          intro hc
          exact hj j' hj' (by rw [← hc, hs])
        simp [hs, hPs]
      · simp [hs]
    have hmapeq :
        (rest.map (fun j' =>
          ((d.filter (fun s =>
            decide (salesKey s = (j'.techCode, j'.jobNumber)))).map f).sum)) =
        (rest.map (fun j' =>
          (((d.filter (fun s => !P s)).filter (fun s =>
            decide (salesKey s = (j'.techCode, j'.jobNumber)))).map f).sum)) := by
      refine List.map_congr_left ?_
      intro j' hj'
      rw [hfilters j' hj']
    rw [hmapeq]
    have hrest2 := ih (d.filter (fun s => !P s))
      (fun s hs => hf s (List.mem_of_mem_filter hs)) hrest
    have hpart := sum_map_filter_partition P f d
    omega

theorem mergedSumExact_eq_filter_sums (jobs : List JobKey)
    (sales : List SalesRecord) (f : SalesRecord → Int) :
    mergedSumExact f (merge_sales_with_jobs_exact jobs sales) =
      ((jobs.map (fun j =>
        (((dedupSales sales).filter (fun s =>
          decide (salesKey s = (j.techCode, j.jobNumber)))).map f).sum)).sum) := by
  induction jobs with
  | nil => simp [merge_sales_with_jobs_exact, mergedSumExact]
  | cons j rest ih =>
    simp only [merge_sales_with_jobs_exact, List.flatMap_cons] at ih ⊢
    rw [List.map_cons, List.sum_cons, ← ih]
    simp only [mergedSumExact, List.map_append, List.sum_append]
    congr 1
    rw [← jobKey_filter_eq]
    exact contribution_eq j f _

/-- C1 (amended): on the exact job/invoice join path, provided the job rows
have pairwise-distinct `(TechCode, JobNumber)` keys and the revenue
component is nonnegative on the sales table, the component's sum over the
merge output never exceeds its sum over the raw sales records.  (On the
technician-level fallback path, and for duplicated job keys or negative
amounts, the bound fails; see the counterexample.) -/
theorem merge_sales_no_double_count_exact (jobs : List JobKey)
    (sales : List SalesRecord) (f : SalesRecord → Int)
    ( _hmem : f ∈ revComponents) (hf : ∀ s ∈ sales, 0 ≤ f s)
    (hkeys : jobs.Pairwise
      (fun a b => (a.techCode, a.jobNumber) ≠ (b.techCode, b.jobNumber))) :
    mergedSumExact f (merge_sales_with_jobs_exact jobs sales) ≤
      rawSalesSum f sales := by
  rw [mergedSumExact_eq_filter_sums]
  have hd : ∀ s ∈ dedupSales sales, 0 ≤ f s := by
    intro s hs
    exact hf s ((dedupSalesAux_sublist [] sales).mem hs)
  calc ((jobs.map (fun j =>
        (((dedupSales sales).filter (fun s =>
          decide (salesKey s = (j.techCode, j.jobNumber)))).map f).sum)).sum)
      ≤ ((dedupSales sales).map f).sum :=
        disjoint_filter_sums_le jobs (dedupSales sales) f hd hkeys
    _ ≤ rawSalesSum f sales := by
        refine List.Sublist.sum_le_sum ?_ ?_
        · exact (dedupSalesAux_sublist [] sales).map f
        · intro a ha
          obtain ⟨s, hs, rfl⟩ := List.mem_map.mp ha
          exact hf s hs

/-- C1 counterexample, refuting the claim as stated: (1) on the fallback
path a technician with two job rows and one 10-dollar sales record yields a
merged labor sum of 20 against a raw sum of 10; (2) on the exact path two
job rows with the same `(TechCode, JobNumber)` key double the matched
record; (3) on the exact path a negative-amount duplicate is dropped by
deduplication, leaving a merged sum above the raw sum. -/
theorem merge_sales_double_count_counterexample :
    (mergedSumFallback SalesRecord.laborSold
        [JobKey.mk "JS" "1001", JobKey.mk "JS" "1002"]
        [SalesRecord.mk "JS" "1001" 10 0 0 0 10] >
      rawSalesSum SalesRecord.laborSold
        [SalesRecord.mk "JS" "1001" 10 0 0 0 10]) ∧
    (mergedSumExact SalesRecord.laborSold
        (merge_sales_with_jobs_exact
          [JobKey.mk "JS" "1001", JobKey.mk "JS" "1001"]
          [SalesRecord.mk "JS" "1001" 10 0 0 0 10]) >
      rawSalesSum SalesRecord.laborSold
        [SalesRecord.mk "JS" "1001" 10 0 0 0 10]) ∧
    (mergedSumExact SalesRecord.laborSold
        (merge_sales_with_jobs_exact [JobKey.mk "JS" "1001"]
          [SalesRecord.mk "JS" "1001" 5 0 0 0 5,
           SalesRecord.mk "JS" "1001" (-3) 0 0 0 (-3)]) >
      rawSalesSum SalesRecord.laborSold
        [SalesRecord.mk "JS" "1001" 5 0 0 0 5,
         SalesRecord.mk "JS" "1001" (-3) 0 0 0 (-3)]) := by
  decide

/-- Witness for the amended C1 at a concrete table: two distinct jobs, a
duplicated sales record, nonnegative labor amounts. -/
theorem merge_sales_no_double_count_exact_witness :
    mergedSumExact SalesRecord.laborSold
      (merge_sales_with_jobs_exact
        [JobKey.mk "JS" "1001", JobKey.mk "BB" "1002"]
        [SalesRecord.mk "JS" "1001" 10 0 0 0 10,
         SalesRecord.mk "JS" "1001" 4 0 0 0 4]) ≤
    rawSalesSum SalesRecord.laborSold
      [SalesRecord.mk "JS" "1001" 10 0 0 0 10,
       SalesRecord.mk "JS" "1001" 4 0 0 0 4] :=
  merge_sales_no_double_count_exact _ _ _
    (by simp [revComponents]) (by decide) (by decide)

/-! ## C3: GPS stop matching -/

theorem gpsThreshold_eq : GPS_MATCH_THRESHOLD * 100 = 80 := by
  norm_num [GPS_MATCH_THRESHOLD]

theorem bestStopLoop_mem (conf : String → String → ℚ) (addr : String)
    (l : List GpsStop) (best : Option GpsStop) (bc : ℚ) (s : GpsStop)
    (h : (bestStopLoop conf addr l best bc).1 = some s) :
    s ∈ l ∨ best = some s := by
  induction l generalizing best bc with
  | nil => exact Or.inr h
  | cons a rest ih =>
    rw [bestStopLoop] at h
    by_cases hc : bc < conf addr a.address ∧
        GPS_MATCH_THRESHOLD * 100 ≤ conf addr a.address
    · rw [if_pos hc] at h
      rcases ih _ _ h with h1 | h2
      · exact Or.inl (List.mem_cons_of_mem _ h1)
      · exact Or.inl (by rw [Option.some_inj.mp h2]; exact List.mem_cons_self _ _)
    · rw [if_neg hc] at h
      rcases ih _ _ h with h1 | h2
      · exact Or.inl (List.mem_cons_of_mem _ h1)
      · exact Or.inr h2

theorem bestStopLoop_mono (conf : String → String → ℚ) (addr : String)
    (l : List GpsStop) (best : Option GpsStop) (bc : ℚ) :
    bc ≤ (bestStopLoop conf addr l best bc).2 := by
  induction l generalizing best bc with
  | nil => exact le_refl _
  | cons a rest ih =>
    rw [bestStopLoop]
    by_cases hc : bc < conf addr a.address ∧
        GPS_MATCH_THRESHOLD * 100 ≤ conf addr a.address
    · rw [if_pos hc]
      exact le_trans (le_of_lt hc.1) (ih _ _)
    · rw [if_neg hc]
      exact ih _ _

theorem bestStopLoop_ge (conf : String → String → ℚ) (addr : String)
    (l : List GpsStop) (best : Option GpsStop) (bc : ℚ) (u : GpsStop)
    (hu : u ∈ l) (h80 : 80 ≤ conf addr u.address) :
    conf addr u.address ≤ (bestStopLoop conf addr l best bc).2 := by
  revert hu
  revert best bc
  induction l with
  | nil => intro best bc hu; simp at hu
  | cons a rest ih =>
    intro best bc hu
    rw [bestStopLoop]
    rcases List.mem_cons.mp hu with rfl | hu2
    · by_cases hc : bc < conf addr u.address ∧
          GPS_MATCH_THRESHOLD * 100 ≤ conf addr u.address
      · rw [if_pos hc]
        exact bestStopLoop_mono conf addr rest _ _
      · rw [if_neg hc]
        rw [gpsThreshold_eq] at hc
        have hle : conf addr u.address ≤ bc := by
          by_contra hlt
          push_neg at hlt
          exact hc ⟨hlt, h80⟩
        exact le_trans hle (bestStopLoop_mono conf addr rest _ _)
    · by_cases hc : bc < conf addr a.address ∧
          GPS_MATCH_THRESHOLD * 100 ≤ conf addr a.address
      · rw [if_pos hc]
        exact ih _ _ hu2
      · rw [if_neg hc]
        exact ih _ _ hu2

theorem bestStopLoop_invariant (conf : String → String → ℚ) (addr : String)
    (l : List GpsStop) (best : Option GpsStop) (bc : ℚ)
    (hinv : (best = none ∧ bc = 0) ∨
      (∃ b, best = some b ∧ bc = conf addr b.address ∧ 80 ≤ bc)) :
    ((bestStopLoop conf addr l best bc).1 = none ∧
        (bestStopLoop conf addr l best bc).2 = 0) ∨
      (∃ b, (bestStopLoop conf addr l best bc).1 = some b ∧
        (bestStopLoop conf addr l best bc).2 = conf addr b.address ∧
        80 ≤ (bestStopLoop conf addr l best bc).2) := by
  induction l generalizing best bc with
  | nil =>
    rcases hinv with ⟨h1, h2⟩ | ⟨b, h1, h2, h3⟩
    · exact Or.inl ⟨h1, h2⟩
    · exact Or.inr ⟨b, h1, h2, h2 ▸ h3⟩
  | cons a rest ih =>
    rw [bestStopLoop]
    by_cases hc : bc < conf addr a.address ∧
        GPS_MATCH_THRESHOLD * 100 ≤ conf addr a.address
    · rw [if_pos hc]
      refine ih _ _ (Or.inr ⟨a, rfl, rfl, ?_⟩)
      rw [gpsThreshold_eq] at hc
      exact hc.2
    · rw [if_neg hc]
      exact ih _ _ hinv

theorem bestStopLoop_all_below (conf : String → String → ℚ) (addr : String)
    (l : List GpsStop) (best : Option GpsStop) (bc : ℚ)
    (h : ∀ u ∈ l, conf addr u.address < 80) :
    bestStopLoop conf addr l best bc = (best, bc) := by
  induction l with
  | nil => rfl
  | cons a rest ih =>
    rw [bestStopLoop]
    have ha := h a (List.mem_cons_self _ _)
    have hc : ¬(bc < conf addr a.address ∧
        GPS_MATCH_THRESHOLD * 100 ≤ conf addr a.address) := by
      rw [gpsThreshold_eq]
      rintro ⟨-, h2⟩
      linarith
    rw [if_neg hc]
    exact ih (fun u hu => h u (List.mem_cons_of_mem _ hu))

theorem bestStopLoop_no_improvement (conf : String → String → ℚ) (addr : String)
    (l : List GpsStop) (best : Option GpsStop) (bc : ℚ)
    (h : ∀ u ∈ l, conf addr u.address ≤ bc) :
    bestStopLoop conf addr l best bc = (best, bc) := by
  induction l with
  | nil => rfl
  | cons a rest ih =>
    rw [bestStopLoop]
    have ha := h a (List.mem_cons_self _ _)
    have hc : ¬(bc < conf addr a.address ∧
        GPS_MATCH_THRESHOLD * 100 ≤ conf addr a.address) := by
      rintro ⟨h1, -⟩
      linarith
    rw [if_neg hc]
    exact ih (fun u hu => h u (List.mem_cons_of_mem _ hu))

theorem bestStopLoop_first_max (conf : String → String → ℚ) (addr : String)
    (l₁ : List GpsStop) (s : GpsStop) (l₂ : List GpsStop)
    (best : Option GpsStop) (bc : ℚ) (hbc : bc < conf addr s.address)
    (h80 : 80 ≤ conf addr s.address)
    (h1 : ∀ u ∈ l₁, conf addr u.address < conf addr s.address)
    (h2 : ∀ u ∈ l₂, conf addr u.address ≤ conf addr s.address) :
    bestStopLoop conf addr (l₁ ++ s :: l₂) best bc =
      (some s, conf addr s.address) := by
  revert hbc h1
  revert best bc
  induction l₁ with
  | nil =>
    intro best bc hbc h1
    simp only [List.nil_append]
    rw [bestStopLoop]
    have hc : bc < conf addr s.address ∧
        GPS_MATCH_THRESHOLD * 100 ≤ conf addr s.address := by
      rw [gpsThreshold_eq]
      exact ⟨hbc, h80⟩
    rw [if_pos hc]
    exact bestStopLoop_no_improvement conf addr l₂ _ _ h2
  | cons a t ih =>
    intro best bc hbc h1
    have ha := h1 a (List.mem_cons_self _ _)
    simp only [List.cons_append]
    rw [bestStopLoop]
    by_cases hc : bc < conf addr a.address ∧
        GPS_MATCH_THRESHOLD * 100 ≤ conf addr a.address
    · rw [if_pos hc]
      exact ih _ _ ha (fun u hu => h1 u (List.mem_cons_of_mem _ hu))
    · rw [if_neg hc]
      exact ih _ _ hbc (fun u hu => h1 u (List.mem_cons_of_mem _ hu))

/-- C3: for a job with a known device and appointment time `t` and window
`w`, `match_jobs_to_gps_stops` (1) only ever returns a stop of that device
whose start time lies in `[t - w, t + w]`, with address confidence at least
80 and maximal among the in-window candidates; (2) returns the
first-encountered candidate among those attaining the maximum (ties broken
in favor of the earlier candidate) whenever an in-window candidate reaches
the threshold; and (3) returns `none` — null GPS fields, no error — when
every in-window candidate is below the threshold 80. -/
theorem gps_match_window_threshold_tiebreak (conf : String → String → ℚ)
    (w : Int) (job : JobForGps) (gps : List GpsStop) (t : Int)
    (hta : job.firstAppmnt = some t) (hdev : job.device ≠ "UNKNOWN") :
    (∀ s, match_jobs_to_gps_stops conf w job gps = some s →
      s ∈ candidateStops gps job.device t w ∧
      s.device = job.device ∧ t - w ≤ s.startTime ∧ s.startTime ≤ t + w ∧
      80 ≤ conf job.address s.address ∧
      ∀ u ∈ candidateStops gps job.device t w,
        conf job.address u.address ≤ conf job.address s.address) ∧
    (∀ l₁ s l₂, candidateStops gps job.device t w = l₁ ++ s :: l₂ →
      80 ≤ conf job.address s.address →
      (∀ u ∈ l₁, conf job.address u.address < conf job.address s.address) →
      (∀ u ∈ l₂, conf job.address u.address ≤ conf job.address s.address) →
      match_jobs_to_gps_stops conf w job gps = some s) ∧
    ((∀ u ∈ candidateStops gps job.device t w,
        conf job.address u.address < 80) →
      match_jobs_to_gps_stops conf w job gps = none) := by
  have hunfold : match_jobs_to_gps_stops conf w job gps =
      (bestStopLoop conf job.address
        (candidateStops gps job.device t w) none 0).1 := by
    rw [match_jobs_to_gps_stops, if_neg hdev, hta]
  refine ⟨?_, ?_, ?_⟩
  · intro s hs
    rw [hunfold] at hs
    have hmem : s ∈ candidateStops gps job.device t w := by
      rcases bestStopLoop_mem conf job.address _ none 0 s hs with h | h
      · exact h
      · exact absurd h (by simp)
    have hprops : s.device = job.device ∧ t - w ≤ s.startTime ∧
        s.startTime ≤ t + w := by
      have hm2 := (List.mem_filter.mp (by rw [candidateStops] at hmem; exact hmem)).2
      rw [Bool.and_eq_true, Bool.and_eq_true] at hm2
      exact ⟨beq_iff_eq.mp hm2.1.1, of_decide_eq_true hm2.1.2,
        of_decide_eq_true hm2.2⟩
    have hinv := bestStopLoop_invariant conf job.address
      (candidateStops gps job.device t w) none 0 (Or.inl ⟨rfl, rfl⟩)
    rcases hinv with ⟨h1, -⟩ | ⟨b, h1, h2, h3⟩
    · rw [hs] at h1; exact absurd h1 (by simp)
    · rw [hs] at h1
      have hbs : b = s := (Option.some_inj.mp h1).symm
      rw [hbs] at h2
      have h80s : (80 : ℚ) ≤ conf job.address s.address := by
        rw [← h2]; exact h3
      refine ⟨hmem, hprops.1, hprops.2.1, hprops.2.2, h80s, ?_⟩
      intro u hu
      by_cases h80u : 80 ≤ conf job.address u.address
      · have hge := bestStopLoop_ge conf job.address
          (candidateStops gps job.device t w) none 0 u hu h80u
        rw [h2] at hge
        exact hge
      · push_neg at h80u
        linarith
  · intro l₁ s l₂ hcand h80 h1 h2
    rw [hunfold, hcand]
    rw [bestStopLoop_first_max conf job.address l₁ s l₂ none 0
      (by linarith) h80 h1 h2]
  · intro hall
    rw [hunfold, bestStopLoop_all_below conf job.address _ none 0 hall]

/-- Witness for C3 at the spec's example: with a 30-minute window around
`t = 1000`, a stop starting at `1031` (confidence 95) is out of window and
never matched, the in-window stop with confidence 85 is matched, and a table
whose only in-window stop has confidence 70 yields no match. -/
theorem gps_match_window_threshold_tiebreak_witness :
    (match_jobs_to_gps_stops
        (fun _ b => if b = "A" then (85 : ℚ) else if b = "B" then 70 else 95) 30
        (JobForGps.mk "D1" "J" (some 1000))
        [GpsStop.mk "D1" "C" 1031 1040, GpsStop.mk "D1" "A" 1029 1050,
         GpsStop.mk "D1" "B" 1010 1020] =
      some (GpsStop.mk "D1" "A" 1029 1050)) ∧
    (match_jobs_to_gps_stops
        (fun _ b => if b = "A" then (85 : ℚ) else if b = "B" then 70 else 95) 30
        (JobForGps.mk "D1" "J" (some 1000))
        [GpsStop.mk "D1" "B" 1010 1020] = none) :=
  ⟨(gps_match_window_threshold_tiebreak
      (fun _ b => if b = "A" then (85 : ℚ) else if b = "B" then 70 else 95) 30
      (JobForGps.mk "D1" "J" (some 1000))
      [GpsStop.mk "D1" "C" 1031 1040, GpsStop.mk "D1" "A" 1029 1050,
       GpsStop.mk "D1" "B" 1010 1020] 1000 rfl (by decide)).2.1
    [] (GpsStop.mk "D1" "A" 1029 1050) [GpsStop.mk "D1" "B" 1010 1020]
    (by decide) (by decide) (by decide) (by decide),
   (gps_match_window_threshold_tiebreak
      (fun _ b => if b = "A" then (85 : ℚ) else if b = "B" then 70 else 95) 30
      (JobForGps.mk "D1" "J" (some 1000))
      [GpsStop.mk "D1" "B" 1010 1020] 1000 rfl (by decide)).2.2 (by decide)⟩

/-! ## C5: driving score and category -/

/-- C5: a technician row whose alert counts are all zero gets
`DrivingScore = 100`, as the claim states, but the category bucketing of
metrics.py lines 393-398 calls `pd.cut` with the bin edges
`[0, 90, 75, 60, 40, 0, 100]`, which do not increase monotonically, so
pandas raises `ValueError` for every score and no `EXCELLENT` (or any)
category is ever assigned by the thresholds. -/
theorem driving_score_zero_alerts_bug :
    (drivingScore (ALERT_WEIGHTS.map (fun p => (p.1, 0))) = 100) ∧
    (drivingCutBins = [0, 90, 75, 60, 40, 0, 100]) ∧
    (binsIncreasing drivingCutBins = false) ∧
    (∀ q : ℚ, assignDrivingCategory q =
      Except.error "bins must increase monotonically") := by
  refine ⟨by norm_num [drivingScore, weightedScore, ALERT_WEIGHTS,
    maxPossibleBadScore], by decide, by decide, ?_⟩
  intro q
  rw [assignDrivingCategory, pdCut, if_neg]
  rw [Bool.not_eq_true]
  decide

/-! ## C4: determinism of the revenue metrics across runs -/

/-- C4: the revenue metrics are not a deterministic function of the input
table.  `calculate_tech_revenue_metrics` seeds only `np.random` (with a
`# Set random seed for reproducibility` comment) but draws the technician
tier and variations from the unseeded Python `random` module, so two runs on
the same one-job input can legitimately draw tier 1 and tier 2 and report
different `TotalRevenue` — refuting idempotence of the pipeline.  Both draw
bundles below are within the documented ranges of `random.randint(1, 5)` and
`random.uniform`. -/
theorem tech_revenue_nondeterministic :
    validDraws (RevenueDraws.mk 1 0 (1/2) (3/10)) ∧
    validDraws (RevenueDraws.mk 2 0 (1/2) (3/10)) ∧
    techTotalRevenue 1 (RevenueDraws.mk 1 0 (1/2) (3/10)) ≠
      techTotalRevenue 1 (RevenueDraws.mk 2 0 (1/2) (3/10)) := by
  refine ⟨?_, ?_, ?_⟩
  · refine ⟨by norm_num, by norm_num, by norm_num, by norm_num, by norm_num,
      by norm_num, by norm_num, by norm_num⟩
  · refine ⟨by norm_num, by norm_num, by norm_num, by norm_num, by norm_num,
      by norm_num, by norm_num, by norm_num⟩
  · norm_num [techTotalRevenue, avgJobValue]

/-! ## C6: cancellation-reason priority tie-break -/

/-- C6: when at least two categories match a nonempty description,
`extract_cancellation_reason` returns the matching category that comes
earliest in `CATEGORY_PRIORITY` (hit counts are never compared between
categories), with confidence `min(hits / len(keywords), 1)` computed for the
winning category only. -/
theorem cancellation_priority_tiebreak (d : String) (cat : String)
    (hne : d ≠ "") (hlen : 1 < (categoryMatches d).length)
    (hfind : CATEGORY_PRIORITY.find?
      (fun c => ((categoryMatches d).lookup c).isSome) = some cat) :
    extract_cancellation_reason (some d) =
      (cat, min ((countHits d (keywordsOf cat) : ℚ) /
        ((keywordsOf cat).length : ℚ)) 1) := by
  have hms : categoryMatches d ≠ [] := by
    intro hc
    rw [hc] at hlen
    simp at hlen
  simp only [extract_cancellation_reason]
  rw [if_neg hne, if_neg hms, if_pos hlen, hfind]
  rfl

/-- Witness for C6 at the spec's example: in
`"customer cancel due to price too high"` both `CUSTOMER_INITIATED` and
`PRICE_TOO_HIGH` match (two matches), the priority list picks
`CUSTOMER_INITIATED`, and the confidence is `min(1/6, 1) = 1/6`. -/
theorem cancellation_priority_tiebreak_witness :
    extract_cancellation_reason (some "customer cancel due to price too high") =
      ("CUSTOMER_INITIATED", 1/6) := by
  have h := cancellation_priority_tiebreak
    "customer cancel due to price too high" "CUSTOMER_INITIATED"
    (by decide) (by decide) (by decide)
  rw [h]
  have hc : countHits "customer cancel due to price too high"
      (keywordsOf "CUSTOMER_INITIATED") = 1 := by decide
  have hl : (keywordsOf "CUSTOMER_INITIATED").length = 6 := by decide
  rw [hc, hl]
  norm_num [min_def]

/-! ## Shared lemmas on case folding and stripping -/

theorem upChar_idem (c : Char) : upChar (upChar c) = upChar c := by
  rcases h : upPairs.lookup c with - | u
  · simp [upChar, h]
  · have hmem := lookup_some_mem h
    have hall : ∀ p ∈ upPairs, upPairs.lookup p.2 = none := by decide
    have hu := hall (c, u) hmem
    simp only [upChar, h, Option.getD_some]
    simp [hu]

theorem upChar_ws (c : Char) : isWsChar (upChar c) = isWsChar c := by
  rcases h : upPairs.lookup c with - | u
  · simp [upChar, h]
  · have hmem := lookup_some_mem h
    have hall : ∀ p ∈ upPairs, isWsChar p.1 = false ∧ isWsChar p.2 = false := by
      decide
    obtain ⟨h1, h2⟩ := hall (c, u) hmem
    simp only [upChar, h, Option.getD_some]
    rw [h1, h2]

theorem upperChars_idem (l : List Char) :
    upperChars (upperChars l) = upperChars l := by
  simp only [upperChars, List.map_map]
  exact List.map_congr_left (fun c _ => upChar_idem c)

theorem dropWhile_ws_upper (l : List Char) :
    (upperChars l).dropWhile isWsChar = upperChars (l.dropWhile isWsChar) := by
  have hfe : (isWsChar ∘ upChar) = isWsChar := funext (fun c => upChar_ws c)
  simp only [upperChars, List.dropWhile_map, hfe]

theorem trimRight_upper (l : List Char) :
    trimRight (upperChars l) = upperChars (trimRight l) := by
  simp only [trimRight, upperChars]
  rw [← List.map_reverse]
  have hfe : (isWsChar ∘ upChar) = isWsChar := funext (fun c => upChar_ws c)
  rw [List.dropWhile_map, hfe, List.map_reverse]

theorem pyStrip_upper (l : List Char) :
    pyStrip (upperChars l) = upperChars (pyStrip l) := by
  rw [pyStrip, pyStrip, trimRight_upper, dropWhile_ws_upper]

theorem dropWhile_head_false {p : Char → Bool} {l : List Char} {c : Char}
    {cs : List Char} (h : l.dropWhile p = c :: cs) : p c = false := by
  induction l with
  | nil => simp at h
  | cons a t ih =>
    rw [List.dropWhile_cons] at h
    by_cases ha : p a
    · rw [if_pos ha] at h
      exact ih h
    · rw [if_neg ha] at h
      obtain rfl : a = c := by
        exact (List.cons.injEq a t c cs ▸ h).1
      exact Bool.of_not_eq_true ha

theorem dropWhile_ws_idem (l : List Char) :
    (l.dropWhile isWsChar).dropWhile isWsChar = l.dropWhile isWsChar := by
  rcases h : l.dropWhile isWsChar with - | ⟨c, cs⟩
  · rfl
  · rw [List.dropWhile_cons, dropWhile_head_false h]
    simp

theorem trimRight_pyStrip (l : List Char) :
    trimRight (pyStrip l) = pyStrip l := by
  rcases hph : (pyStrip l).reverse with - | ⟨d, ds⟩
  · have hz : pyStrip l = [] := by
      have h2 := congrArg List.reverse hph
      simpa using h2
    rw [hz]
    rfl
  · have hd : (pyStrip l).getLast? = some d := by
      rw [← List.head?_reverse, hph]
      rfl
    have hsuf : pyStrip l <:+ trimRight l := by
      rw [pyStrip]
      exact List.dropWhile_suffix _
    obtain ⟨t, ht⟩ := hsuf
    have hlast : (trimRight l).getLast? = some d := by
      rw [← ht, List.getLast?_append, hd]
      rfl
    have hhead : (l.reverse.dropWhile isWsChar).head? = some d := by
      rw [← List.getLast?_reverse]
      exact hlast
    have hwd : isWsChar d = false := by
      rcases hdw : l.reverse.dropWhile isWsChar with - | ⟨e, es⟩
      · rw [hdw] at hhead
        simp at hhead
      · rw [hdw] at hhead
        simp only [List.head?_cons, Option.some_inj] at hhead
        rw [← hhead]
        exact dropWhile_head_false hdw
    rw [trimRight, hph, List.dropWhile_cons, hwd]
    simp only [Bool.false_eq_true, if_false]
    rw [← hph, List.reverse_reverse]

theorem pyStrip_idem (l : List Char) : pyStrip (pyStrip l) = pyStrip l := by
  conv_lhs => rw [pyStrip, trimRight_pyStrip]
  rw [pyStrip, dropWhile_ws_idem]

theorem pyStripUpper_idem (s : String) :
    pyStripUpper (pyStripUpper s) = pyStripUpper s := by
  simp only [pyStripUpper]
  rw [pyStrip_upper, upperChars_idem, pyStrip_idem]

/-! ## C8: technician-code-to-device lookup -/

/-- C8: the code-to-device lookup (standardise, then resolve against
`TECH_REVERSE_MAPPING`) returns the mapped GPS device name when a mapping
exists for the standardised code, and the sentinel `UNKNOWN` otherwise — it
is a total function and never errors.  It is case-insensitive: the result is
unchanged if the input code is first trimmed and uppercased. -/
theorem tech_code_lookup_spec :
    (∀ (tc : Option String) (dev : String),
      TECH_REVERSE_MAPPING.lookup (standardize_tech_code tc) = some dev →
      deviceForTech tc = dev) ∧
    (∀ tc : Option String,
      TECH_REVERSE_MAPPING.lookup (standardize_tech_code tc) = none →
      deviceForTech tc = "UNKNOWN") ∧
    (∀ s : String,
      deviceForTech (some s) = deviceForTech (some (pyStripUpper s))) := by
  refine ⟨?_, ?_, ?_⟩
  · intro tc dev h
    rw [deviceForTech, map_tech_codes_to_devices, h]
    rfl
  · intro tc h
    rw [deviceForTech, map_tech_codes_to_devices, h]
    rfl
  · intro s
    by_cases hse : pyStripUpper s = ""
    · rw [hse]
      by_cases hs0 : s = ""
      · rw [hs0]
      · have h1 : standardize_tech_code (some s) = "" := by
          simp only [standardize_tech_code]
          rw [if_neg hs0, hse]
          decide
        rw [deviceForTech, h1]
        decide
    · have hs0 : s ≠ "" := by
        intro h0
        rw [h0] at hse
        exact hse rfl
      rw [deviceForTech, deviceForTech]
      congr 1
      simp only [standardize_tech_code]
      rw [if_neg hs0, if_neg hse, pyStripUpper_idem]

/-- Witness for C8: the mapped code `JS` resolves to device `James`, the
unmapped code `MK` resolves to `UNKNOWN`, and `" js "` resolves like `JS`. -/
theorem tech_code_lookup_spec_witness :
    deviceForTech (some "JS") = "James" ∧
    deviceForTech (some "MK") = "UNKNOWN" ∧
    deviceForTech (some " js ") = deviceForTech (some "JS") := by
  refine ⟨tech_code_lookup_spec.1 (some "JS") "James" (by decide),
    tech_code_lookup_spec.2.1 (some "MK") (by decide), ?_⟩
  have h := tech_code_lookup_spec.2.2 " js "
  have hps : pyStripUpper " js " = "JS" := by decide
  rw [hps] at h
  exact h

/-! ## C9: duration parsing -/

/-- C9 counterexample: `parse_duration` does not coerce unparseable input;
`float('abc')` raises `ValueError`, which propagates to the caller. -/
theorem parse_duration_raises_counterexample :
    parse_duration (some "abc") = Except.error "ValueError" := rfl

/-- C9 (amended): `parse_duration` returns `0` for missing or empty input
and the seconds count for `HH:MM:SS` strings whose parts all parse as
floats; but a non-numeric part makes it raise `ValueError` rather than
being coerced to zero (see the counterexample). -/
theorem parse_duration_amended :
    (parse_duration none = Except.ok 0) ∧
    (parse_duration (some "") = Except.ok 0) ∧
    (∀ (s : String) (hs ms ss : List Char) (h m sec : ℚ),
      s ≠ "" →
      splitOnColon s.data = [hs, ms, ss] →
      pyFloat (String.mk hs) = Except.ok h →
      pyFloat (String.mk ms) = Except.ok m →
      pyFloat (String.mk ss) = Except.ok sec →
      parse_duration (some s) =
        Except.ok (pyIntTrunc (h * 3600 + m * 60 + sec))) := by
  refine ⟨rfl, rfl, ?_⟩
  intro s hs ms ss h m sec hne hsplit hh hm hss
  simp only [parse_duration]
  rw [if_neg hne]
  simp only [hsplit]
  rw [hh, hm, hss]
  rfl

/-- Witness for the amended C9: `"2:30:45"` parses to 9045 seconds. -/
theorem parse_duration_amended_witness :
    parse_duration (some "2:30:45") = Except.ok 9045 := by
  have h := parse_duration_amended.2.2 "2:30:45" "2".data "30".data "45".data
    2 30 45 (by decide) (by decide) (by rfl) (by rfl) (by rfl)
  rw [h]
  have harith : (2 : ℚ) * 3600 + 30 * 60 + 45 = 9045 := by norm_num
  rw [harith, pyIntTrunc, if_neg (by norm_num), Rat.floor_def']
  norm_num

/-! ## C10: fabricated cancellation flags -/

theorem fabricated_count (n : Nat) (pick : List Nat) (hnd : pick.Nodup)
    (hlt : ∀ i ∈ pick, i < n) :
    ((List.range n).map (fun i => decide (i ∈ pick))).count true =
      pick.length := by
  have h1 : ((List.range n).map (fun i => decide (i ∈ pick))).count true =
      ((List.range n).filter (fun i => decide (i ∈ pick))).length := by
    rw [List.count, List.countP_map]
    rw [List.countP_eq_length_filter]
    congr 1
    exact List.filter_congr (fun i _ => by simp)
  have hperm : ((List.range n).filter (fun i => decide (i ∈ pick))).Perm pick := by
    rw [List.perm_ext_iff_of_nodup (List.Nodup.filter _ (List.nodup_range n)) hnd]
    intro a
    constructor
    · intro ha
      have := List.mem_filter.mp ha
      exact of_decide_eq_true this.2
    · intro ha
      refine List.mem_filter.mpr ⟨List.mem_range.mpr (hlt a ha), ?_⟩
      exact decide_eq_true ha
  rw [h1, hperm.length_eq]

/-- C10: for a nonempty job table with at least one cancellation-indicator
column in which no row shows any cancellation indicator,
`extract_cancellation_reasons_from_df` still marks the randomly chosen
index set `pick` (of size `max 1 k`, where `k` is `int(0.05 * n)`) as
canceled and reports the company-wide cancellation rate computed from that
fabricated set — a strictly positive rate for data containing no
cancellations. -/
theorem fabricated_cancellation_rate (t : JobTable) (pick : List Nat) (k : Nat)
    (hcol : hasAnyIndicatorCol t = true) (hrows : t.rows ≠ [])
    (hnone : ∀ r ∈ t.rows, rowIndicator t r = false)
    (hnd : pick.Nodup) (hlt : ∀ i ∈ pick, i < t.rows.length)
    (hsize : pick.length = max 1 k) :
    companyCancelRate t pick =
      some (((max 1 k : ℕ) : ℚ) / (t.rows.length : ℚ)) ∧
    0 < (((max 1 k : ℕ) : ℚ) / (t.rows.length : ℚ)) := by
  have hn : 0 < t.rows.length := List.length_pos.mpr hrows
  have hmask : (t.rows.map (rowIndicator t)).count true = 0 := by
    rw [List.count_eq_zero]
    intro hc
    obtain ⟨r, hr, hre⟩ := List.mem_map.mp hc
    rw [hnone r hr] at hre
    exact Bool.false_ne_true hre
  constructor
  · rw [companyCancelRate, if_pos hcol]
    simp only
    rw [if_pos hn, if_pos ⟨hmask, hn⟩]
    rw [fabricatedMask, fabricated_count t.rows.length pick hnd hlt, hsize]
  · refine div_pos ?_ (by exact_mod_cast hn)
    have h1 : (1 : ℕ) ≤ max 1 k := le_max_left 1 k
    exact_mod_cast lt_of_lt_of_le Nat.zero_lt_one h1

/-- Witness for C10: three benign rows (no cancellation indicator anywhere),
one randomly picked index, fabricated rate `1/3 > 0`. -/
theorem fabricated_cancellation_rate_witness :
    companyCancelRate
      (JobTable.mk true true true
        [JobRow.mk (some false) (some "Done") (some "fixed washer"),
         JobRow.mk (some false) (some "Closed") (some "replaced belt"),
         JobRow.mk none (some "Done") none]) [1] =
      some (((max 1 0 : ℕ) : ℚ) / 3) := by
  have h := (fabricated_cancellation_rate
    (JobTable.mk true true true
      [JobRow.mk (some false) (some "Done") (some "fixed washer"),
       JobRow.mk (some false) (some "Closed") (some "replaced belt"),
       JobRow.mk none (some "Done") none]) [1] 0
    (by decide) (by decide) (by decide) (by decide) (by decide) (by decide)).1
  rw [h]
  norm_num

/-! ## C7: idempotence of address standardisation

The counterexample is the non-overlapping collapse of duplicate punctuation:
one pass rewrites `"..."` to `".."`, a second pass rewrites `".."` to `"."`.
The amended claim restricts to inputs free of periods and commas, on which
every punctuation rule is the identity and one pass reaches a fixed point. -/

theorem isWsChar_not_word {c : Char} (h : isWsChar c = true) :
    isWordChar c = false := by
  simp only [isWsChar, Bool.or_eq_true, decide_eq_true_eq] at h
  rcases h with ⟨⟨⟨⟨h | h⟩ | h⟩ | h⟩ | h⟩ | h <;> subst h <;> decide

theorem subPunctAux_id (pc : Char) (s : List Char) (h : pc ∉ s) :
    subPunctAux pc none s = s := by
  induction s with
  | nil => rfl
  | cons c cs ih =>
    rw [subPunctAux]
    have hc : ¬(c = pc) := fun hc => h (hc ▸ List.mem_cons_self _ _)
    rw [if_neg hc]
    rw [ih (fun hm => h (List.mem_cons_of_mem _ hm))]

theorem stripCommaUSA_id (s : List Char) (h : ',' ∉ s) :
    stripCommaUSA s = s := by
  induction s with
  | nil => rfl
  | cons c cs ih =>
    rw [stripCommaUSA]
    have hc : (c = ',' && (cs.dropWhile isWsChar == "USA".data)) = false := by
      have : ¬(c = ',') := fun hc => h (hc ▸ List.mem_cons_self _ _)
      simp [this]
    rw [hc]
    simp only [Bool.false_eq_true, if_false]
    rw [ih (fun hm => h (List.mem_cons_of_mem _ hm))]

theorem subAbbrDotAux_id (w : List Char) (cur s : List Char) (h : '.' ∉ s) :
    subAbbrDotAux w cur s = cur.reverse ++ s := by
  induction s generalizing cur with
  | nil =>
    rw [subAbbrDotAux]
    by_cases hc : cur = []
    · rw [if_pos hc, hc]
      rfl
    · rw [if_neg hc, List.append_nil]
  | cons c cs ih =>
    rw [subAbbrDotAux]
    have hdot : ¬(c = '.' ∧ cur ≠ [] ∧ cur.reverse = w) := by
      rintro ⟨rfl, -, -⟩
      exact h (List.mem_cons_self _ _)
    have htail : '.' ∉ cs := fun hm => h (List.mem_cons_of_mem _ hm)
    by_cases hw : isWordChar c
    · rw [if_pos hw, ih (c :: cur) htail]
      simp
    · rw [if_neg hw, if_neg hdot]
      by_cases hc : cur = []
      · rw [if_pos hc, ih [] htail, hc]
        rfl
      · rw [if_neg hc, ih [] htail]
        rfl

theorem subAbbrDot_id (w : List Char) (s : List Char) (h : '.' ∉ s) :
    subAbbrDot w s = s := by
  rw [subAbbrDot, subAbbrDotAux_id w [] s h]
  rfl

theorem flushRun_mem {w r cur : List Char} {c : Char}
    (h : c ∈ flushRun w r cur) : c ∈ r ∨ c ∈ cur := by
  rw [flushRun] at h
  by_cases hc : cur.reverse = w
  · rw [if_pos hc] at h
    exact Or.inl h
  · rw [if_neg hc] at h
    exact Or.inr (List.mem_reverse.mp h)

theorem subWordAux_mem {w r cur s : List Char} {c : Char}
    (h : c ∈ subWordAux w r cur s) : c ∈ cur ∨ c ∈ r ∨ c ∈ s := by
  induction s generalizing cur with
  | nil =>
    rw [subWordAux] at h
    by_cases hc : cur = []
    · rw [if_pos hc] at h
      simp at h
    · rw [if_neg hc] at h
      rcases flushRun_mem h with h1 | h2
      · exact Or.inr (Or.inl h1)
      · exact Or.inl h2
  | cons a cs ih =>
    rw [subWordAux] at h
    by_cases hw : isWordChar a
    · rw [if_pos hw] at h
      rcases ih h with h1 | h2
      · rcases List.mem_cons.mp h1 with rfl | h3
        · exact Or.inr (Or.inr (List.mem_cons_self _ _))
        · exact Or.inl h3
      · rcases h2 with h3 | h4
        · exact Or.inr (Or.inl h3)
        · exact Or.inr (Or.inr (List.mem_cons_of_mem _ h4))
    · rw [if_neg hw] at h
      by_cases hc : cur = []
      · rw [if_pos hc] at h
        rcases List.mem_cons.mp h with rfl | h2
        · exact Or.inr (Or.inr (List.mem_cons_self _ _))
        · rcases ih h2 with h3 | h4
          · simp at h3
          · rcases h4 with h5 | h6
            · exact Or.inr (Or.inl h5)
            · exact Or.inr (Or.inr (List.mem_cons_of_mem _ h6))
      · rw [if_neg hc] at h
        rcases List.mem_append.mp h with h1 | h2
        · rcases flushRun_mem h1 with h3 | h4
          · exact Or.inr (Or.inl h3)
          · exact Or.inl h4
        · rcases List.mem_cons.mp h2 with rfl | h3
          · exact Or.inr (Or.inr (List.mem_cons_self _ _))
          · rcases ih h3 with h4 | h5
            · simp at h4
            · rcases h5 with h6 | h7
              · exact Or.inr (Or.inl h6)
              · exact Or.inr (Or.inr (List.mem_cons_of_mem _ h7))

theorem subWord_mem {w r s : List Char} {c : Char}
    (h : c ∈ subWord w r s) : c ∈ r ∨ c ∈ s := by
  rcases subWordAux_mem h with h1 | h2
  · simp at h1
  · exact h2

theorem subAbbrDotAux_mem {w cur s : List Char} {c : Char}
    (h : c ∈ subAbbrDotAux w cur s) : c ∈ cur ∨ c ∈ w ∨ c ∈ s := by
  induction s generalizing cur with
  | nil =>
    rw [subAbbrDotAux] at h
    by_cases hc : cur = []
    · rw [if_pos hc] at h
      simp at h
    · rw [if_neg hc] at h
      exact Or.inl (List.mem_reverse.mp h)
  | cons a cs ih =>
    rw [subAbbrDotAux] at h
    by_cases hw : isWordChar a
    · rw [if_pos hw] at h
      rcases ih h with h1 | h2
      · rcases List.mem_cons.mp h1 with rfl | h3
        · exact Or.inr (Or.inr (List.mem_cons_self _ _))
        · exact Or.inl h3
      · rcases h2 with h3 | h4
        · exact Or.inr (Or.inl h3)
        · exact Or.inr (Or.inr (List.mem_cons_of_mem _ h4))
    · rw [if_neg hw] at h
      by_cases hmat : a = '.' ∧ cur ≠ [] ∧ cur.reverse = w
      · rw [if_pos hmat] at h
        rcases List.mem_append.mp h with h1 | h2
        · exact Or.inr (Or.inl h1)
        · rcases ih h2 with h3 | h4
          · simp at h3
          · rcases h4 with h5 | h6
            · exact Or.inr (Or.inl h5)
            · exact Or.inr (Or.inr (List.mem_cons_of_mem _ h6))
      · rw [if_neg hmat] at h
        by_cases hc : cur = []
        · rw [if_pos hc] at h
          rcases List.mem_cons.mp h with rfl | h2
          · exact Or.inr (Or.inr (List.mem_cons_self _ _))
          · rcases ih h2 with h3 | h4
            · simp at h3
            · rcases h4 with h5 | h6
              · exact Or.inr (Or.inl h5)
              · exact Or.inr (Or.inr (List.mem_cons_of_mem _ h6))
        · rw [if_neg hc] at h
          rcases List.mem_append.mp h with h1 | h2
          · exact Or.inl (List.mem_reverse.mp h1)
          · rcases List.mem_cons.mp h2 with rfl | h3
            · exact Or.inr (Or.inr (List.mem_cons_self _ _))
            · rcases ih h3 with h4 | h5
              · simp at h4
              · rcases h5 with h6 | h7
                · exact Or.inr (Or.inl h6)
                · exact Or.inr (Or.inr (List.mem_cons_of_mem _ h7))

theorem collapseWsAux_mem {b : Bool} {s : List Char} {c : Char}
    (h : c ∈ collapseWsAux b s) : c = ' ' ∨ c ∈ s := by
  induction s generalizing b with
  | nil => simp [collapseWsAux] at h
  | cons a cs ih =>
    rw [collapseWsAux] at h
    by_cases hw : isWsChar a
    · rw [if_pos hw] at h
      by_cases hb : b
      · rw [if_pos hb] at h
        rcases ih h with h1 | h2
        · exact Or.inl h1
        · exact Or.inr (List.mem_cons_of_mem _ h2)
      · rw [if_neg hb] at h
        rcases List.mem_cons.mp h with rfl | h2
        · exact Or.inl rfl
        · rcases ih h2 with h3 | h4
          · exact Or.inl h3
          · exact Or.inr (List.mem_cons_of_mem _ h4)
    · rw [if_neg hw] at h
      rcases List.mem_cons.mp h with rfl | h2
      · exact Or.inr (List.mem_cons_self _ _)
      · rcases ih h2 with h3 | h4
        · exact Or.inl h3
        · exact Or.inr (List.mem_cons_of_mem _ h4)

theorem trimRight_mem {s : List Char} {c : Char} (h : c ∈ trimRight s) :
    c ∈ s := by
  rw [trimRight] at h
  rw [List.mem_reverse] at h
  exact List.mem_reverse.mp ((List.dropWhile_sublist _).mem h)

theorem pyStrip_mem {s : List Char} {c : Char} (h : c ∈ pyStrip s) : c ∈ s := by
  rw [pyStrip] at h
  exact trimRight_mem ((List.dropWhile_sublist _).mem h)

theorem foldAbbrevs_mem_generic (ps : List (List Char × List Char)) :
    ∀ (x : List Char) (c : Char), c ∈ List.foldl applyAbbrevRule x ps →
      c ∈ x ∨ ∃ p ∈ ps, c ∈ p.2 := by
  induction ps with
  | nil =>
    intro x c h
    exact Or.inl h
  | cons p rest ih =>
    intro x c h
    rw [List.foldl_cons] at h
    rcases ih (applyAbbrevRule x p) c h with h1 | ⟨q, hq1, hq2⟩
    · rw [applyAbbrevRule] at h1
      rcases subAbbrDotAux_mem h1 with h2 | h3
      · simp at h2
      · rcases h3 with h4 | h5
        · exact Or.inr ⟨p, List.mem_cons_self _ _, h4⟩
        · rcases subWord_mem h5 with h6 | h7
          · exact Or.inr ⟨p, List.mem_cons_self _ _, h6⟩
          · exact Or.inl h7
    · exact Or.inr ⟨q, List.mem_cons_of_mem _ hq1, hq2⟩

theorem wordRunsAux_word_front (a : List Char) :
    ∀ (s cur : List Char), (∀ c ∈ a, isWordChar c = true) →
      wordRunsAux cur (a ++ s) = wordRunsAux (a.reverse ++ cur) s := by
  induction a with
  | nil =>
    intro s cur _
    simp
  | cons c a' ih =>
    intro s cur ha
    have hc := ha c (List.mem_cons_self _ _)
    rw [List.cons_append, wordRunsAux, if_pos hc,
      ih s (c :: cur) (fun d hd => ha d (List.mem_cons_of_mem _ hd))]
    congr 1
    simp

theorem wordRunsAux_all_nonword {s : List Char}
    (hs : ∀ c ∈ s, isWordChar c = false) (cur : List Char) :
    wordRunsAux cur s = if cur = [] then [] else [cur.reverse] := by
  induction s generalizing cur with
  | nil => rw [wordRunsAux]
  | cons c cs ih =>
    have hc := hs c (List.mem_cons_self _ _)
    rw [wordRunsAux, if_neg (by rw [hc]; exact Bool.false_ne_true)]
    by_cases hcur : cur = []
    · rw [if_pos hcur, ih (fun d hd => hs d (List.mem_cons_of_mem _ hd)), if_pos rfl,
        if_pos hcur]
    · rw [if_neg hcur, ih (fun d hd => hs d (List.mem_cons_of_mem _ hd)), if_pos rfl,
        if_neg hcur]

theorem wordRunsAux_nil (cur : List Char) :
    wordRunsAux cur [] = if cur = [] then [] else [cur.reverse] := rfl

theorem wordRunsAux_cons (cur : List Char) (c : Char) (cs : List Char) :
    wordRunsAux cur (c :: cs) =
      if isWordChar c then wordRunsAux (c :: cur) cs
      else if cur = [] then wordRunsAux [] cs
      else cur.reverse :: wordRunsAux [] cs := rfl

theorem wordRuns_single {l : List Char} (hw : ∀ c ∈ l, isWordChar c = true)
    (hne : l ≠ []) : wordRuns l = [l] := by
  have h := wordRunsAux_word_front l [] [] hw
  rw [List.append_nil, List.append_nil] at h
  rw [wordRuns, h, wordRunsAux_nil, if_neg (by simpa using hne),
    List.reverse_reverse]

theorem wordRuns_append_word_nonword {a : List Char} {c : Char} {x : List Char}
    (hne : a ≠ []) (ha : ∀ d ∈ a, isWordChar d = true)
    (hc : isWordChar c = false) :
    wordRuns (a ++ c :: x) = a :: wordRuns x := by
  rw [wordRuns, wordRunsAux_word_front a (c :: x) [] ha, List.append_nil]
  rw [wordRunsAux, if_neg (by rw [hc]; exact Bool.false_ne_true)]
  rw [if_neg (by simpa using hne), List.reverse_reverse]
  rfl

theorem wordRunsAux_append_nonword {t : List Char}
    (ht : ∀ c ∈ t, isWordChar c = false) :
    ∀ (y cur : List Char), wordRunsAux cur (y ++ t) = wordRunsAux cur y := by
  intro y
  induction y with
  | nil =>
    intro cur
    rw [List.nil_append, wordRunsAux_all_nonword ht cur, wordRunsAux]
  | cons c y' ih =>
    intro cur
    rw [List.cons_append, wordRunsAux, wordRunsAux]
    by_cases hw : isWordChar c
    · rw [if_pos hw, if_pos hw, ih]
    · rw [if_neg hw, if_neg hw]
      by_cases hcur : cur = []
      · rw [if_pos hcur, if_pos hcur, ih]
      · rw [if_neg hcur, if_neg hcur, ih]

theorem wordRuns_dropWhile_ws (s : List Char) :
    wordRuns (s.dropWhile isWsChar) = wordRuns s := by
  induction s with
  | nil => rfl
  | cons c cs ih =>
    rw [List.dropWhile_cons]
    by_cases hw : isWsChar c
    · rw [if_pos hw, ih, wordRuns, wordRuns, wordRunsAux_cons,
        if_neg (show ¬(isWordChar c = true) by
          rw [isWsChar_not_word hw]; exact Bool.false_ne_true), if_pos rfl]
    · rw [if_neg hw]

theorem wordRuns_trimRight (s : List Char) :
    wordRuns (trimRight s) = wordRuns s := by
  have hdecomp : s = trimRight s ++ (s.reverse.takeWhile isWsChar).reverse := by
    rw [trimRight, ← List.reverse_append, List.takeWhile_append_dropWhile,
      List.reverse_reverse]
  have hws : ∀ c ∈ (s.reverse.takeWhile isWsChar).reverse,
      isWordChar c = false := by
    intro c hc
    exact isWsChar_not_word (List.mem_takeWhile_imp (List.mem_reverse.mp hc))
  conv_rhs => rw [hdecomp]
  rw [wordRuns, wordRuns, wordRunsAux_append_nonword hws]

theorem wordRuns_pyStrip (s : List Char) : wordRuns (pyStrip s) = wordRuns s := by
  rw [pyStrip, wordRuns_dropWhile_ws, wordRuns_trimRight]

theorem wordRunsAux_collapse {s : List Char} :
    ∀ (b : Bool) (cur : List Char), (b = true → cur = []) →
      wordRunsAux cur (collapseWsAux b s) = wordRunsAux cur s := by
  induction s with
  | nil =>
    intro b cur _
    rfl
  | cons c cs ih =>
    intro b cur hb
    rw [collapseWsAux]
    by_cases hw : isWsChar c
    · have hnw : isWordChar c = false := isWsChar_not_word hw
      rw [if_pos hw]
      by_cases hbb : b
      · have hcur := hb hbb
        rw [if_pos hbb, hcur, ih true [] (fun _ => rfl), wordRunsAux_cons,
          if_neg (show ¬(isWordChar c = true) by
            rw [hnw]; exact Bool.false_ne_true), if_pos rfl]
      · rw [if_neg hbb, wordRunsAux_cons, wordRunsAux_cons,
          if_neg (show ¬(isWordChar ' ' = true) by decide),
          if_neg (show ¬(isWordChar c = true) by
            rw [hnw]; exact Bool.false_ne_true)]
        by_cases hcur : cur = []
        · rw [if_pos hcur, if_pos hcur, ih true [] (fun _ => rfl)]
        · rw [if_neg hcur, if_neg hcur, ih true [] (fun _ => rfl)]
    · rw [if_neg hw, wordRunsAux_cons, wordRunsAux_cons]
      by_cases hword : isWordChar c
      · rw [if_pos hword, if_pos hword, ih false (c :: cur) (by simp)]
      · rw [if_neg hword, if_neg hword]
        by_cases hcur : cur = []
        · rw [if_pos hcur, if_pos hcur, ih false [] (by simp)]
        · rw [if_neg hcur, if_neg hcur, ih false [] (by simp)]

theorem wordRuns_collapseWs (s : List Char) :
    wordRuns (collapseWs s) = wordRuns s := by
  rw [collapseWs, wordRuns, wordRuns, wordRunsAux_collapse false [] (by simp)]

theorem wordRuns_subWordAux (w r : List Char) (hr : r ≠ [])
    (hrw : ∀ c ∈ r, isWordChar c = true) :
    ∀ (s cur : List Char), (∀ c ∈ cur, isWordChar c = true) →
      wordRuns (subWordAux w r cur s) =
        (wordRunsAux cur s).map (fun q => if q = w then r else q) := by
  intro s
  induction s with
  | nil =>
    intro cur hcur
    rw [subWordAux, wordRunsAux_nil]
    by_cases hc : cur = []
    · rw [if_pos hc, if_pos hc]
      rfl
    · rw [if_neg hc, if_neg hc, flushRun]
      by_cases hcw : cur.reverse = w
      · rw [if_pos hcw]
        simp only [List.map_cons, List.map_nil, if_pos hcw]
        exact wordRuns_single hrw hr
      · rw [if_neg hcw]
        simp only [List.map_cons, List.map_nil, if_neg hcw]
        exact wordRuns_single
          (fun c hcr => hcur c (List.mem_reverse.mp hcr)) (by simpa using hc)
  | cons c cs ih =>
    intro cur hcur
    rw [subWordAux, wordRunsAux_cons]
    by_cases hword : isWordChar c
    · rw [if_pos hword, if_pos hword]
      refine ih (c :: cur) ?_
      intro d hd
      rcases List.mem_cons.mp hd with rfl | h2
      · exact hword
      · exact hcur d h2
    · rw [if_neg hword, if_neg hword]
      by_cases hc : cur = []
      · rw [if_pos hc, if_pos hc]
        have hstep : wordRuns (c :: subWordAux w r [] cs) =
            wordRuns (subWordAux w r [] cs) := by
          rw [wordRuns, wordRuns, wordRunsAux_cons, if_neg hword, if_pos rfl]
        rw [hstep]
        exact ih [] (by simp)
      · rw [if_neg hc, if_neg hc]
        have hfne : flushRun w r cur ≠ [] := by
          rw [flushRun]
          by_cases hcw : cur.reverse = w
          · rw [if_pos hcw]
            exact hr
          · rw [if_neg hcw]
            simpa using hc
        have hfw : ∀ d ∈ flushRun w r cur, isWordChar d = true := by
          intro d hd
          rcases flushRun_mem hd with h1 | h2
          · exact hrw d h1
          · exact hcur d h2
        rw [wordRuns_append_word_nonword hfne hfw (Bool.of_not_eq_true hword)]
        rw [ih [] (by simp), List.map_cons, flushRun]

theorem wordRuns_subWord (w r x : List Char) (hr : r ≠ [])
    (hrw : ∀ c ∈ r, isWordChar c = true) :
    wordRuns (subWord w r x) =
      (wordRuns x).map (fun q => if q = w then r else q) :=
  wordRuns_subWordAux w r hr hrw x [] (by simp)

theorem notMem_runs_subWord_other {v w r : List Char} (x : List Char)
    (hvr : r ≠ v) (hr : r ≠ []) (hrw : ∀ c ∈ r, isWordChar c = true)
    (hv : v ∉ wordRuns x) : v ∉ wordRuns (subWord w r x) := by
  rw [wordRuns_subWord w r x hr hrw]
  intro hmem
  obtain ⟨q, hq, hqe⟩ := List.mem_map.mp hmem
  by_cases hqw : q = w
  · rw [if_pos hqw] at hqe
    exact hvr hqe
  · rw [if_neg hqw] at hqe
    exact hv (hqe ▸ hq)

theorem notMem_runs_subWord_self {w r : List Char} (x : List Char)
    (hrw0 : r ≠ w) (hr : r ≠ []) (hrw : ∀ c ∈ r, isWordChar c = true) :
    w ∉ wordRuns (subWord w r x) := by
  rw [wordRuns_subWord w r x hr hrw]
  intro hmem
  obtain ⟨q, hq, hqe⟩ := List.mem_map.mp hmem
  by_cases hqw : q = w
  · rw [if_pos hqw] at hqe
    exact hrw0 hqe
  · rw [if_neg hqw] at hqe
    exact hqw hqe

theorem dot_notMem_subWord {w r x : List Char} (hx : '.' ∉ x) (hr : '.' ∉ r) :
    '.' ∉ subWord w r x :=
  fun hm => (subWord_mem hm).elim (fun h => hr h) (fun h => hx h)

theorem notMem_runs_foldl (ps : List (List Char × List Char)) :
    ∀ (x v : List Char), '.' ∉ x →
      (∀ p ∈ ps, p.2 ≠ [] ∧ (∀ c ∈ p.2, isWordChar c = true) ∧ '.' ∉ p.2) →
      (∀ p ∈ ps, p.2 ≠ v) → v ∉ wordRuns x →
      v ∉ wordRuns (List.foldl applyAbbrevRule x ps) := by
  induction ps with
  | nil =>
    intro x v _ _ _ hv
    simpa using hv
  | cons p rest ih =>
    intro x v hx hprops hne hv
    rw [List.foldl_cons]
    obtain ⟨hp1, hp2, hp3⟩ := hprops p (List.mem_cons_self _ _)
    have happ : applyAbbrevRule x p = subWord p.1 p.2 x := by
      rw [applyAbbrevRule]
      exact subAbbrDot_id _ _ (dot_notMem_subWord hx hp3)
    rw [happ]
    exact ih (subWord p.1 p.2 x) v (dot_notMem_subWord hx hp3)
      (fun q hq => hprops q (List.mem_cons_of_mem _ hq))
      (fun q hq => hne q (List.mem_cons_of_mem _ hq))
      (notMem_runs_subWord_other x (hne p (List.mem_cons_self _ _)) hp1 hp2 hv)

theorem noFull_after_foldl (ps : List (List Char × List Char)) :
    ∀ (x : List Char), '.' ∉ x →
      (∀ p ∈ ps, p.2 ≠ [] ∧ (∀ c ∈ p.2, isWordChar c = true) ∧ '.' ∉ p.2) →
      (∀ p ∈ ps, ∀ q ∈ ps, q.2 ≠ p.1) →
      ∀ p ∈ ps, p.1 ∉ wordRuns (List.foldl applyAbbrevRule x ps) := by
  induction ps with
  | nil =>
    intro x _ _ _ p hp
    simp at hp
  | cons q0 rest ih =>
    intro x hx hprops hcross p hp
    rw [List.foldl_cons]
    obtain ⟨h01, h02, h03⟩ := hprops q0 (List.mem_cons_self _ _)
    have happ : applyAbbrevRule x q0 = subWord q0.1 q0.2 x := by
      rw [applyAbbrevRule]
      exact subAbbrDot_id _ _ (dot_notMem_subWord hx h03)
    rw [happ]
    have hx2 : '.' ∉ subWord q0.1 q0.2 x := dot_notMem_subWord hx h03
    rcases List.mem_cons.mp hp with rfl | hp2
    · have hstart : p.1 ∉ wordRuns (subWord p.1 p.2 x) :=
        notMem_runs_subWord_self x
          (hcross p (List.mem_cons_self _ _) p (List.mem_cons_self _ _)) h01 h02
      exact notMem_runs_foldl rest _ _ hx2
        (fun q hq => hprops q (List.mem_cons_of_mem _ hq))
        (fun q hq => hcross p (List.mem_cons_self _ _) q (List.mem_cons_of_mem _ hq))
        hstart
    · exact ih (subWord q0.1 q0.2 x) hx2
        (fun q hq => hprops q (List.mem_cons_of_mem _ hq))
        (fun q hq1 q2 hq2 => hcross q (List.mem_cons_of_mem _ hq1) q2
          (List.mem_cons_of_mem _ hq2))
        p hp2

theorem subWordAux_id (w r : List Char) :
    ∀ (s cur : List Char), (∀ q ∈ wordRunsAux cur s, q ≠ w) →
      subWordAux w r cur s = cur.reverse ++ s := by
  intro s
  induction s with
  | nil =>
    intro cur hq
    rw [subWordAux]
    by_cases hc : cur = []
    · rw [if_pos hc, hc]
      rfl
    · have hm : cur.reverse ∈ wordRunsAux cur [] := by
        rw [wordRunsAux_nil, if_neg hc]
        exact List.mem_cons_self _ _
      rw [if_neg hc, flushRun, if_neg (hq cur.reverse hm), List.append_nil]
  | cons c cs ih =>
    intro cur hq
    rw [subWordAux]
    by_cases hword : isWordChar c
    · rw [if_pos hword, ih (c :: cur) (fun q hmem => hq q
        (by rw [wordRunsAux_cons, if_pos hword]; exact hmem))]
      simp
    · rw [if_neg hword]
      by_cases hc : cur = []
      · rw [if_pos hc, ih [] (fun q hmem => hq q
          (by rw [wordRunsAux_cons, if_neg hword, if_pos hc]; exact hmem)), hc]
        rfl
      · have hm : cur.reverse ∈ wordRunsAux cur (c :: cs) := by
          rw [wordRunsAux_cons, if_neg hword, if_neg hc]
          exact List.mem_cons_self _ _
        rw [if_neg hc, ih [] (fun q hmem => hq q
          (by rw [wordRunsAux_cons, if_neg hword, if_neg hc]
              exact List.mem_cons_of_mem _ hmem)),
          flushRun, if_neg (hq cur.reverse hm)]
        rfl

theorem subWord_id {w r x : List Char} (h : w ∉ wordRuns x) :
    subWord w r x = x := by
  rw [subWord, subWordAux_id w r x [] (fun q hqm hqw => h (hqw ▸ hqm))]
  rfl

theorem foldl_applyRule_id (ps : List (List Char × List Char)) :
    ∀ x : List Char, '.' ∉ x → (∀ p ∈ ps, p.1 ∉ wordRuns x) →
      List.foldl applyAbbrevRule x ps = x := by
  induction ps with
  | nil =>
    intro x _ _
    rfl
  | cons p rest ih =>
    intro x hx hruns
    rw [List.foldl_cons, applyAbbrevRule,
      subWord_id (hruns p (List.mem_cons_self _ _)), subAbbrDot_id _ _ hx]
    exact ih x hx (fun q hq => hruns q (List.mem_cons_of_mem _ hq))

theorem headWs_cons (c : Char) (cs : List Char) :
    headWs (c :: cs) = isWsChar c :=
  rfl

theorem collB_cons (c : Char) (cs : List Char) :
    collB (c :: cs) =
      ((!isWsChar c || c = ' ') && !(isWsChar c && headWs cs) && collB cs) :=
  rfl

theorem collapseWsAux_not_headWs (s : List Char) :
    headWs (collapseWsAux true s) = false := by
  induction s with
  | nil => rfl
  | cons c cs ih =>
    rw [collapseWsAux]
    by_cases hw : isWsChar c
    · rw [if_pos hw, if_pos rfl]
      exact ih
    · rw [if_neg hw, headWs_cons]
      exact Bool.of_not_eq_true hw

theorem collB_collapseWsAux (s : List Char) :
    ∀ b : Bool, collB (collapseWsAux b s) = true := by
  induction s with
  | nil =>
    intro b
    rfl
  | cons c cs ih =>
    intro b
    rw [collapseWsAux]
    by_cases hw : isWsChar c
    · rw [if_pos hw]
      cases b with
      | true =>
        rw [if_pos rfl]
        exact ih true
      | false =>
        rw [if_neg Bool.false_ne_true, collB_cons,
          collapseWsAux_not_headWs cs, ih true]
        decide
    · rw [if_neg hw, collB_cons, Bool.of_not_eq_true hw, ih false]
      simp

theorem collapseWsAux_true_eq_false {cs : List Char} (h : headWs cs = false) :
    collapseWsAux true cs = collapseWsAux false cs := by
  cases cs with
  | nil => rfl
  | cons d ds =>
    rw [headWs_cons] at h
    rw [collapseWsAux, collapseWsAux, if_neg (by rw [h]; exact Bool.false_ne_true),
      if_neg (by rw [h]; exact Bool.false_ne_true)]

theorem collB_collapseWs_id : ∀ s : List Char, collB s = true →
    collapseWsAux false s = s := by
  intro s
  induction s with
  | nil =>
    intro _
    rfl
  | cons c cs ih =>
    intro h
    rw [collB_cons, Bool.and_assoc, Bool.and_eq_true, Bool.and_eq_true] at h
    obtain ⟨h1, h2, h3⟩ := h
    rw [collapseWsAux]
    by_cases hw : isWsChar c
    · have hsp : c = ' ' := by
        rw [hw] at h1
        simpa using h1
      have hhd : headWs cs = false := by
        rw [hw] at h2
        simpa using h2
      rw [if_pos hw, if_neg Bool.false_ne_true,
        collapseWsAux_true_eq_false hhd, ih h3, hsp]
    · rw [if_neg hw, ih h3]

theorem collB_dropWhile_ws {s : List Char} (h : collB s = true) :
    collB (s.dropWhile isWsChar) = true := by
  induction s with
  | nil => exact h
  | cons c cs ih =>
    rw [collB_cons, Bool.and_assoc, Bool.and_eq_true, Bool.and_eq_true] at h
    obtain ⟨h1, h2, h3⟩ := h
    rw [List.dropWhile_cons]
    by_cases hw : isWsChar c
    · rw [if_pos hw]
      exact ih h3
    · rw [if_neg hw, collB_cons, Bool.and_assoc, Bool.and_eq_true,
        Bool.and_eq_true]
      exact ⟨h1, h2, h3⟩

theorem collB_append_left : ∀ (l1 l2 : List Char),
    collB (l1 ++ l2) = true → collB l1 = true := by
  intro l1
  induction l1 with
  | nil =>
    intro l2 _
    rfl
  | cons c cs ih =>
    intro l2 h
    rw [List.cons_append, collB_cons, Bool.and_assoc, Bool.and_eq_true,
      Bool.and_eq_true] at h
    obtain ⟨h1, h2, h3⟩ := h
    rw [collB_cons, Bool.and_assoc, Bool.and_eq_true, Bool.and_eq_true]
    refine ⟨h1, ?_, ih l2 h3⟩
    cases cs with
    | nil => simp [headWs]
    | cons d ds =>
      rw [List.cons_append, headWs_cons] at h2
      rw [headWs_cons]
      exact h2

theorem collB_trimRight {s : List Char} (h : collB s = true) :
    collB (trimRight s) = true := by
  have hdecomp : s = trimRight s ++ (s.reverse.takeWhile isWsChar).reverse := by
    rw [trimRight, ← List.reverse_append, List.takeWhile_append_dropWhile,
      List.reverse_reverse]
  rw [hdecomp] at h
  exact collB_append_left _ _ h

theorem collB_pyStrip {s : List Char} (h : collB s = true) :
    collB (pyStrip s) = true := by
  rw [pyStrip]
  exact collB_dropWhile_ws (collB_trimRight h)

theorem upChar_eq_self_or_table (d : Char) :
    upChar d = d ∨ ∃ p ∈ upPairs, upChar d = p.2 := by
  rcases h : upPairs.lookup d with - | u
  · left
    simp [upChar, h]
  · right
    exact ⟨(d, u), lookup_some_mem h, by simp [upChar, h]⟩

theorem punct_notMem_upperChars {c : Char} {l : List Char}
    (hc : ∀ p ∈ upPairs, p.2 ≠ c) (hself : c ∉ l) : c ∉ upperChars l := by
  intro hm
  obtain ⟨d, hd, hde⟩ := List.mem_map.mp hm
  rcases upChar_eq_self_or_table d with h1 | ⟨p, hp, h2⟩
  · exact hself ((h1.symm.trans hde) ▸ hd)
  · exact hc p hp (h2.symm.trans hde)

theorem upperChars_fixed : ∀ l : List Char, (∀ c ∈ l, upChar c = c) →
    upperChars l = l := by
  intro l
  induction l with
  | nil =>
    intro _
    rfl
  | cons c cs ih =>
    intro h
    have h2 := ih (fun d hd => h d (List.mem_cons_of_mem _ hd))
    rw [upperChars] at h2 ⊢
    rw [List.map_cons, h c (List.mem_cons_self _ _), h2]

theorem standardize_data_props (s : String) (hs : ¬(s = ""))
    (hdot : '.' ∉ s.data) (hcom : ',' ∉ s.data) :
    (standardize_address s).data =
        pyStrip (collapseWs (foldAbbrevs (upperChars (pyStrip s.data)))) ∧
      '.' ∉ collapseWs (foldAbbrevs (upperChars (pyStrip s.data))) ∧
      ',' ∉ collapseWs (foldAbbrevs (upperChars (pyStrip s.data))) ∧
      '.' ∉ upperChars (pyStrip s.data) := by
  have htabdot : ∀ p ∈ upPairs, p.2 ≠ '.' := by decide
  have htabcom : ∀ p ∈ upPairs, p.2 ≠ ',' := by decide
  have hdot0 : '.' ∉ upperChars (pyStrip s.data) :=
    punct_notMem_upperChars htabdot (fun hm => hdot (pyStrip_mem hm))
  have hcom0 : ',' ∉ upperChars (pyStrip s.data) :=
    punct_notMem_upperChars htabcom (fun hm => hcom (pyStrip_mem hm))
  have habbr : ∀ p ∈ abbrevPairs, '.' ∉ p.2 ∧ ',' ∉ p.2 := by decide
  have hdot1 : '.' ∉ foldAbbrevs (upperChars (pyStrip s.data)) := by
    intro hm
    rcases foldAbbrevs_mem_generic abbrevPairs _ '.' hm with h0 | ⟨p, hp, hcp⟩
    · exact hdot0 h0
    · exact (habbr p hp).1 hcp
  have hcom1 : ',' ∉ foldAbbrevs (upperChars (pyStrip s.data)) := by
    intro hm
    rcases foldAbbrevs_mem_generic abbrevPairs _ ',' hm with h0 | ⟨p, hp, hcp⟩
    · exact hcom0 h0
    · exact (habbr p hp).2 hcp
  have hdot2 : '.' ∉ collapseWs (foldAbbrevs (upperChars (pyStrip s.data))) := by
    intro hm
    rcases collapseWsAux_mem hm with h | h
    · exact absurd h (by decide)
    · exact hdot1 h
  have hcom2 : ',' ∉ collapseWs (foldAbbrevs (upperChars (pyStrip s.data))) := by
    intro hm
    rcases collapseWsAux_mem hm with h | h
    · exact absurd h (by decide)
    · exact hcom1 h
  refine ⟨?_, hdot2, hcom2, hdot0⟩
  have h3 : subPunctPair ',' (collapseWs (foldAbbrevs (upperChars (pyStrip s.data))))
      = collapseWs (foldAbbrevs (upperChars (pyStrip s.data))) :=
    subPunctAux_id ',' _ hcom2
  have h4 : subPunctPair '.' (collapseWs (foldAbbrevs (upperChars (pyStrip s.data))))
      = collapseWs (foldAbbrevs (upperChars (pyStrip s.data))) :=
    subPunctAux_id '.' _ hdot2
  have h5 : stripCommaUSA (collapseWs (foldAbbrevs (upperChars (pyStrip s.data))))
      = collapseWs (foldAbbrevs (upperChars (pyStrip s.data))) :=
    stripCommaUSA_id _ hcom2
  unfold standardize_address
  rw [if_neg hs]
  rw [h3, h4, h5]

/-- C7 (amended): `standardize_address` is idempotent on every input string
that contains no literal period and no literal comma.  (The original claim of
unconditional idempotence is refuted by
`standardize_address_not_idempotent_counterexample` below: the duplicate
punctuation rule `pc\s*pc -> pc` collapses non-overlapping pairs left to
right in a single pass, so a run of three identical punctuation marks loses
only one mark per application.) -/
theorem standardize_address_idempotent_amended (s : String)
    (hdot : '.' ∉ s.data) (hcomma : ',' ∉ s.data) :
    standardize_address (standardize_address s) = standardize_address s := by
  by_cases hs : s = ""
  · subst hs
    rfl
  · obtain ⟨hdata, hdot2, hcom2, hdot0⟩ := standardize_data_props s hs hdot hcomma
    by_cases hy : standardize_address s = ""
    · rw [hy]
      decide
    · have hzdot : '.' ∉ (standardize_address s).data := by
        rw [hdata]
        exact fun hm => hdot2 (pyStrip_mem hm)
      have hzcom : ',' ∉ (standardize_address s).data := by
        rw [hdata]
        exact fun hm => hcom2 (pyStrip_mem hm)
      obtain ⟨hdata2, _, _, _⟩ :=
        standardize_data_props (standardize_address s) hy hzdot hzcom
      have hzcoll : collB (pyStrip (collapseWs (foldAbbrevs (upperChars
          (pyStrip s.data))))) = true :=
        collB_pyStrip (collB_collapseWsAux _ false)
      have hzups : ∀ c ∈ pyStrip (collapseWs (foldAbbrevs (upperChars
          (pyStrip s.data)))), upChar c = c := by
        intro c hc
        have htab : ∀ p ∈ abbrevPairs, ∀ c ∈ p.2, upChar c = c := by decide
        rcases collapseWsAux_mem (pyStrip_mem hc) with h | h
        · rw [h]
          decide
        · rcases foldAbbrevs_mem_generic abbrevPairs _ c h with h0 | ⟨p, hp, hcp⟩
          · obtain ⟨d, _, hde⟩ := List.mem_map.mp h0
            rw [← hde]
            exact upChar_idem d
          · exact htab p hp c hcp
      have hzruns : ∀ p ∈ abbrevPairs, p.1 ∉ wordRuns (pyStrip (collapseWs
          (foldAbbrevs (upperChars (pyStrip s.data))))) := by
        intro p hp hmem
        rw [wordRuns_pyStrip, wordRuns_collapseWs] at hmem
        have hprops : ∀ p ∈ abbrevPairs,
            p.2 ≠ [] ∧ (∀ c ∈ p.2, isWordChar c = true) ∧ '.' ∉ p.2 := by decide
        have hcross : ∀ p ∈ abbrevPairs, ∀ q ∈ abbrevPairs, q.2 ≠ p.1 := by
          decide
        exact noFull_after_foldl abbrevPairs _ hdot0 hprops hcross p hp hmem
      have hfold : foldAbbrevs (pyStrip (collapseWs (foldAbbrevs (upperChars
          (pyStrip s.data))))) = pyStrip (collapseWs (foldAbbrevs (upperChars
          (pyStrip s.data)))) :=
        foldl_applyRule_id abbrevPairs _
          (fun hm => hdot2 (pyStrip_mem hm)) hzruns
      have hcoll : collapseWs (pyStrip (collapseWs (foldAbbrevs (upperChars
          (pyStrip s.data))))) = pyStrip (collapseWs (foldAbbrevs (upperChars
          (pyStrip s.data)))) :=
        collB_collapseWs_id _ hzcoll
      have hgoal : (standardize_address (standardize_address s)).data =
          (standardize_address s).data := by
        rw [hdata2, hdata, pyStrip_idem, upperChars_fixed _ hzups, hfold,
          hcoll, pyStrip_idem]
      have h1 := congrArg String.mk hgoal
      exact h1

/-- C7 (counterexample to the literal claim): `standardize_address` is not
idempotent.  On `"..."` the first pass collapses the first two periods and
returns `".."`, while a second pass collapses again to `"."`. -/
theorem standardize_address_not_idempotent_counterexample :
    standardize_address (standardize_address "...") ≠
      standardize_address "..." := by
  decide

/-- Witness for C7: the amended idempotence theorem applied at the concrete
period-free, comma-free address `"123  Main   Street"`. -/
theorem standardize_address_idempotent_amended_witness :
    standardize_address (standardize_address "123  Main   Street") =
      standardize_address "123  Main   Street" :=
  standardize_address_idempotent_amended "123  Main   Street"
    (by decide) (by decide)
